import Mathlib

/-!
# Verification of the leash command-safety engine

Shallow embedding of the core of the `leash` repository
(`packages/core/path-validator.ts`, `packages/core/command-analyzer.ts`,
`packages/core/constants.ts`, and the identical bundled revision in the
repository's compiled artefacts), together with proofs about the claims of
its specification.

Modelling conventions:
* Strings are Lean `String`s; all scanning work is done on `String.data`
  (`List Char`).
* The process environment (home directory, environment variables) and the
  filesystem (`realpathSync`) are abstracted into an `Env` record;
  `realpath = none` models `realpathSync` throwing.
* Each JavaScript regular expression used by the source is translated into an
  explicit scanner over `List Char`; the regex is quoted in the doc comment of
  the corresponding definition.  JS `.` is modelled as "any char except CR/LF"
  and `\s` / `\w` by their ASCII fragments.
* Node's `path.resolve`, `path.relative` and `path.basename` (posix flavour)
  are modelled component-wise; `path.resolve` with a non-absolute base is
  modelled as resolving against the root directory (Node would use the
  process working directory, which the engine never relies on: the bound
  working directory is absolute per the engine's interface).
-/

namespace Leash

/-- ASCII fragment of the characters matched by JS `\s` (and trimmed by
`String.prototype.trim`). -/
def jsWs (c : Char) : Bool :=
  c = ' ' ∨ c = '\t' ∨ c = '\n' ∨ c = '\r' ∨ c = '\x0b' ∨ c = '\x0c'

/-- The characters matched by JS `\w`: `[A-Za-z0-9_]`. -/
def wordChar (c : Char) : Bool :=
  c.isAlpha ∨ c.isDigit ∨ c = '_'

/-- The characters matched by JS `.` (no `s` flag): anything but a line
terminator. -/
def dotOk (c : Char) : Bool :=
  ¬ (c = '\n' ∨ c = '\r')

/-- A single or double quote character. -/
def isQuote (c : Char) : Bool :=
  c = '\'' ∨ c = '"'

/-- Build a `String` back from a `List Char`. -/
def mkStr (l : List Char) : String := ⟨l⟩

/-- JS `String.prototype.startsWith`. -/
def strStartsWith (s p : String) : Bool :=
  p.data.isPrefixOf s.data

/-- JS `String.prototype.includes` for a single character. -/
def strContainsChar (s : String) (c : Char) : Bool :=
  s.data.contains c

/-- `needle` occurs as a contiguous sublist of the second argument. -/
def subListOf (needle : List Char) : List Char → Bool
  | [] => needle.isEmpty
  | c :: r => needle.isPrefixOf (c :: r) ∨ subListOf needle r

/-- JS `String.prototype.includes` for a substring. -/
def strContainsSub (s sub : String) : Bool :=
  subListOf sub.data s.data

/-- Strip leading and trailing JS whitespace from a character list. -/
def trimList (l : List Char) : List Char :=
  ((l.dropWhile jsWs).reverse.dropWhile jsWs).reverse

/-- JS `String.prototype.trim`. -/
def jsTrim (s : String) : String := mkStr (trimList s.data)

/-- Worker for `split(/\s+/)`.  `inTok = true` means we are accumulating a
token (in `cur`, reversed); `inTok = false` means we are inside a separator
run. -/
def jsSplitWsGo (inTok : Bool) (cur : List Char) : List Char → List (List Char)
  | [] => if inTok then [cur.reverse] else [[]]
  | c :: r =>
    if inTok then
      if jsWs c then cur.reverse :: jsSplitWsGo false [] r
      else jsSplitWsGo true (c :: cur) r
    else
      if jsWs c then jsSplitWsGo false [] r
      else jsSplitWsGo true (c :: cur) r

/-- JS `String.prototype.split(/\s+/)`: separators are maximal whitespace
runs; a leading separator yields an empty first element, a trailing separator
an empty last element, and the empty string yields `[""]`. -/
def jsSplitWs (s : String) : List String :=
  (jsSplitWsGo true [] s.data).map mkStr

/-- Node `path.posix.basename`: the last path segment, ignoring trailing
slashes. -/
def basenameStr (s : String) : String :=
  let l := s.data.reverse.dropWhile (· = '/')
  mkStr (l.takeWhile (· ≠ '/')).reverse

/-- Split a character list on `/` (like `"a/b".split("/")`, segments may be
empty). -/
def splitSlash : List Char → List (List Char)
  | [] => [[]]
  | c :: r =>
    if c = '/' then [] :: splitSlash r
    else
      match splitSlash r with
      | [] => [[c]]
      | s :: ss => (c :: s) :: ss

/-- Normalize the segments of an absolute path: drop empty and `.` segments,
let `..` pop the previous segment (or disappear at the root).  `stack` holds
already-accepted segments in reverse order. -/
def normSegs (stack : List (List Char)) : List (List Char) → List (List Char)
  | [] => stack.reverse
  | seg :: rest =>
    if seg = [] ∨ seg = ['.'] then normSegs stack rest
    else if seg = ['.', '.'] then normSegs (stack.drop 1) rest
    else normSegs (seg :: stack) rest

/-- Join normalized segments into an absolute path string. -/
def joinAbs (segs : List (List Char)) : String :=
  mkStr ('/' :: List.intercalate ['/'] segs)

/-- `true` iff the string starts with `/`. -/
def isAbsStr (s : String) : Bool :=
  strStartsWith s "/"

/-- Node `path.posix.resolve(base, p)` for an absolute `base` (the only way
the engine calls it): if `p` is absolute, normalize `p`, otherwise normalize
`base ++ "/" ++ p`.  A non-absolute `base` is resolved against the root. -/
def posixResolve (base p : String) : String :=
  let raw := if isAbsStr p then p.data else base.data ++ '/' :: p.data
  joinAbs (normSegs [] (splitSlash raw))

/-- The normalized segment list of a path string (what `path.posix.resolve`
computes internally, viewing the path as absolute). -/
def canonComps (s : String) : List String :=
  (normSegs [] (splitSlash s.data)).map mkStr

/-- Drop the common leading segments of two segment lists. -/
def dropCommonPrefix : List String → List String → List String × List String
  | a :: as, b :: bs =>
    if a = b then dropCommonPrefix as bs else (a :: as, b :: bs)
  | as, bs => (as, bs)

/-- Join path segments with `/` (no leading separator); the empty list gives
the empty string. -/
def joinSegs : List String → String
  | [] => ""
  | [a] => a
  | a :: b :: r => a ++ "/" ++ joinSegs (b :: r)

/-- Node `path.posix.relative(from, to)`: resolve both, drop the common
leading segments, then one `..` per remaining `from` segment followed by the
remaining `to` segments. -/
def nodeRelative (pfrom pto : String) : String :=
  let pair := dropCommonPrefix (canonComps pfrom) (canonComps pto)
  joinSegs (List.replicate pair.1.length ".." ++ pair.2)

/-- The ambient process state the engine reads: the home directory
(`os.homedir()`), the process environment (`process.env`), and canonical
path resolution (`fs.realpathSync`, where `none` models a thrown error). -/
structure Env where
  home : String
  vars : String → Option String
  realpath : String → Option String

/-- The value substituted for `$NAME` / `${NAME}` by `PathValidator.expand`:
`HOME` and `PWD` are special-cased, unresolved names expand to `""`. -/
def lookupVar (env : Env) (wd : String) (name : String) : String :=
  if name = "HOME" then env.home
  else if name = "PWD" then wd
  else (env.vars name).getD ""

/-- Scanner for the global replace of `/\$\{?(\w+)\}?/g`: at `$`, an optional
`{`, a nonempty run of word characters, and an optional `}` are consumed and
replaced by the variable's value; elsewhere characters are copied.  Fueled;
the wrapper supplies enough fuel for the whole input. -/
def expandVarsF (env : Env) (wd : String) : Nat → List Char → List Char
  | 0, l => l
  | _ + 1, [] => []
  | n + 1, c :: rest =>
    if c = '$' then
      let r1 := match rest with
        | '{' :: rr => rr
        | _ => rest
      let name := r1.takeWhile wordChar
      if name = [] then '$' :: expandVarsF env wd n rest
      else
        let r2 := r1.drop name.length
        let r3 := match r2 with
          | '}' :: rr => rr
          | _ => r2
        (lookupVar env wd (mkStr name)).data ++ expandVarsF env wd n r3
    else c :: expandVarsF env wd n rest

/-- `PathValidator.expand`: replace a leading `~` (exactly `~` or `~/...`)
with the home directory, then substitute environment variables
(`/\$\{?(\w+)\}?/g`). -/
def expand (env : Env) (wd : String) (path : String) : String :=
  let tilded :=
    if path = "~" then env.home
    else if strStartsWith path "~/" then env.home ++ mkStr (path.data.drop 1)
    else path
  mkStr (expandVarsF env wd (tilded.data.length + 1) tilded.data)

/-- `PathValidator.resolveReal`: expand, resolve against the bound working
directory, then canonicalize via `realpathSync`, falling back to the resolved
path when the lookup fails (path does not exist). -/
def resolveReal (env : Env) (wd : String) (path : String) : String :=
  let resolved := posixResolve wd (expand env wd path)
  match env.realpath resolved with
  | some r => r
  | none => resolved

/-- `constants.ts` `DEVICE_PATHS`. -/
def DEVICE_PATHS : List String :=
  ["/dev/null", "/dev/stdin", "/dev/stdout", "/dev/stderr"]

/-- `constants.ts` `TEMP_PATHS`. -/
def TEMP_PATHS : List String :=
  ["/tmp", "/var/tmp", "/private/tmp", "/private/var/tmp"]

/-- `constants.ts` `SAFE_WRITE_PATHS = [...DEVICE_PATHS, ...TEMP_PATHS]`. -/
def SAFE_WRITE_PATHS : List String :=
  DEVICE_PATHS ++ TEMP_PATHS

/-- `constants.ts` `PLATFORM_PATHS` (home-relative). -/
def PLATFORM_PATHS : List String :=
  [".claude", ".factory", ".pi", ".config/opencode"]

/-- `PathValidator.matchesAny`: equal to a zone root or strictly below it. -/
def matchesAny (resolved : String) (paths : List String) : Bool :=
  paths.any fun p => resolved = p ∨ strStartsWith resolved (p ++ "/")

/-- `PathValidator.isSafeForWrite`. -/
def isSafeForWrite (env : Env) (wd : String) (path : String) : Bool :=
  matchesAny (resolveReal env wd path) SAFE_WRITE_PATHS

/-- `PathValidator.isTempPath`. -/
def isTempPath (env : Env) (wd : String) (path : String) : Bool :=
  matchesAny (resolveReal env wd path) TEMP_PATHS

/-- `PathValidator.isPlatformPath`: each platform directory is expanded
against the home directory before comparing. -/
def isPlatformPath (env : Env) (wd : String) (path : String) : Bool :=
  matchesAny (resolveReal env wd path)
    (PLATFORM_PATHS.map fun p => env.home ++ "/" ++ p)

/-- `PathValidator.isWithinWorkingDir`: canonicalize the path and the working
directory; equal means inside, otherwise the relative path must be nonempty
and start with neither `..` nor `/`.  `realpathSync(workingDirectory)`
throwing (`none`) fails closed. -/
def isWithinWorkingDir (env : Env) (wd : String) (path : String) : Bool :=
  match env.realpath wd with
  | none => false
  | some rwd =>
    let rp := resolveReal env wd path
    if rp = rwd then true
    else
      let rel := nodeRelative rwd rp
      if rel = "" then false
      else if strStartsWith rel ".." then false
      else if strStartsWith rel "/" then false
      else true

/-- Result record of `PathValidator.isProtectedPath` (`protected` is a Lean
keyword, so the field is named `prot`). -/
structure ProtResult where
  prot : Bool
  name : Option String
  deriving DecidableEq, Repr

/-- JS regex `/^\.env($|\.(?!example$).+)/` as a predicate on the relative
path: either exactly `.env`, or `.env.` followed by at least one further
character that JS `.` can match, where the text after `.env.` is not exactly
`example`. -/
def protEnvTest (s : String) : Bool :=
  s = ".env" ∨
    (strStartsWith s ".env." ∧ 6 ≤ s.data.length ∧
      dotOk (s.data.getD 5 ' ') ∧ ¬ mkStr (s.data.drop 5) = "example")

/-- JS regex `/^\.git(\/|$)/` as a predicate on the relative path. -/
def protGitTest (s : String) : Bool :=
  s = ".git" ∨ strStartsWith s ".git/"

/-- `constants.ts` `PROTECTED_PATTERNS` (pattern, display name). -/
def PROTECTED_PATTERNS : List ((String → Bool) × String) :=
  [(protEnvTest, ".env files"), (protGitTest, ".git directory")]

/-- The first-match loop of `isProtectedPath` over `PROTECTED_PATTERNS`. -/
def protLookup : List ((String → Bool) × String) → String → ProtResult
  | [], _ => ⟨false, none⟩
  | (test, name) :: rest, s =>
    if test s then ⟨true, some name⟩ else protLookup rest s

/-- `PathValidator.isProtectedPath`: only paths inside the working directory
can be protected; the path relative to the canonical working directory is
tested against `PROTECTED_PATTERNS`, first match wins.  (When
`isWithinWorkingDir` holds, `realpathSync(workingDirectory)` cannot have
thrown, so the `none` branch is unreachable.) -/
def isProtectedPath (env : Env) (wd : String) (path : String) : ProtResult :=
  if isWithinWorkingDir env wd path then
    match env.realpath wd with
    | none => ⟨false, none⟩
    | some rwd =>
      protLookup PROTECTED_PATTERNS (nodeRelative rwd (resolveReal env wd path))
  else ⟨false, none⟩

/-! ## Regex scanners

Each definition below models one JS regular expression of the source.
Patterns that begin with `\b` followed by a word character are run through
`searchWB`, which tries the pattern core at every position whose preceding
character is not a word character.  A pattern core maps the remaining input
to `true` iff some way of matching the rest of the pattern from that position
succeeds; pieces of a pattern return the list of all possible remainders. -/

/-- `true` iff the previous character (if any) is not a word character, i.e.
a `\b` holds before a word character at this position. -/
def nonWordOpt : Option Char → Bool
  | none => true
  | some c => ¬ wordChar c

/-- Remainders after a literal. -/
def litRem (pat : List Char) (l : List Char) : List (List Char) :=
  if pat.isPrefixOf l then [l.drop pat.length] else []

/-- Remainders after `\s+` (all backtracking choices). -/
def wsPlusRem : List Char → List (List Char)
  | [] => []
  | c :: r => if jsWs c then r :: wsPlusRem r else []

/-- Remainders after a single `\s`. -/
def wsOneRem : List Char → List (List Char)
  | [] => []
  | c :: r => if jsWs c then [r] else []

/-- Remainders after `.*` (all backtracking choices; `.` is `dotOk`). -/
def dotStarRem : List Char → List (List Char)
  | [] => [[]]
  | c :: r => (c :: r) :: (if dotOk c then dotStarRem r else [])

/-- Remainders after `[a-zA-Z]*`. -/
def alphaStarRem : List Char → List (List Char)
  | [] => [[]]
  | c :: r => (c :: r) :: (if c.isAlpha then alphaStarRem r else [])

/-- Remainders after `[^\s]+`. -/
def nonWsPlusRem : List Char → List (List Char)
  | [] => []
  | c :: r => if jsWs c then [] else r :: nonWsPlusRem r

/-- Keep the remainders at which a `\b` holds after a word character: end of
input or a non-word character next. -/
def wbAfter (rs : List (List Char)) : List (List Char) :=
  rs.filter fun r =>
    match r with
    | [] => true
    | c :: _ => ¬ wordChar c

/-- Search loop for a pattern of the form `\b<word-initial core>`: try the
core at every position whose previous character is not a word character. -/
def searchWBAux (core : List Char → Bool) : Option Char → List Char → Bool
  | prev, [] => nonWordOpt prev ∧ core []
  | prev, c :: r => (nonWordOpt prev ∧ core (c :: r)) ∨ searchWBAux core (some c) r

/-- `pattern.test(command)` for a pattern starting with `\b` and a word
character. -/
def searchWB (core : List Char → Bool) (s : String) : Bool :=
  searchWBAux core none s.data

/-- Core of `/\bgit\s+checkout\b.*\s--\s/` (after the leading `\b`). -/
def gitCheckoutCore (l : List Char) : Bool :=
  ¬ (((((wbAfter ((litRem "git".data l).flatMap wsPlusRem
      |>.flatMap (litRem "checkout".data))).flatMap dotStarRem).flatMap
        wsOneRem).flatMap (litRem "--".data)).flatMap wsOneRem) = []

/-- Core of `/\bgit\s+restore\s+(?!--staged)/`. -/
def gitRestoreCore (l : List Char) : Bool :=
  (((litRem "git".data l).flatMap wsPlusRem
      |>.flatMap (litRem "restore".data)).flatMap wsPlusRem).any
    fun r => ¬ "--staged".data.isPrefixOf r

/-- Core of `/\bgit\s+reset\s+.*--hard\b/`. -/
def gitResetHardCore (l : List Char) : Bool :=
  ¬ wbAfter ((((litRem "git".data l).flatMap wsPlusRem
      |>.flatMap (litRem "reset".data)).flatMap wsPlusRem).flatMap dotStarRem
      |>.flatMap (litRem "--hard".data)) = []

/-- Core of `/\bgit\s+reset\s+.*--merge\b/`. -/
def gitResetMergeCore (l : List Char) : Bool :=
  ¬ wbAfter ((((litRem "git".data l).flatMap wsPlusRem
      |>.flatMap (litRem "reset".data)).flatMap wsPlusRem).flatMap dotStarRem
      |>.flatMap (litRem "--merge".data)) = []

/-- Core of `/\bgit\s+clean\s+.*(-[a-zA-Z]*f[a-zA-Z]*|--force)\b/`. -/
def gitCleanCore (l : List Char) : Bool :=
  let pre := (((litRem "git".data l).flatMap wsPlusRem
      |>.flatMap (litRem "clean".data)).flatMap wsPlusRem).flatMap dotStarRem
  let alt1 := ((pre.flatMap (litRem "-".data)).flatMap alphaStarRem
      |>.flatMap (litRem "f".data)).flatMap alphaStarRem
  let alt2 := pre.flatMap (litRem "--force".data)
  ¬ wbAfter (alt1 ++ alt2) = []

/-- Core of `/\bgit\s+push\s+.*(-f|--force)\b/`. -/
def gitPushCore (l : List Char) : Bool :=
  let pre := (((litRem "git".data l).flatMap wsPlusRem
      |>.flatMap (litRem "push".data)).flatMap wsPlusRem).flatMap dotStarRem
  ¬ wbAfter (pre.flatMap (litRem "-f".data) ++ pre.flatMap (litRem "--force".data)) = []

/-- Core of `/\bgit\s+branch\s+.*-D\b/`. -/
def gitBranchDCore (l : List Char) : Bool :=
  ¬ wbAfter ((((litRem "git".data l).flatMap wsPlusRem
      |>.flatMap (litRem "branch".data)).flatMap wsPlusRem).flatMap dotStarRem
      |>.flatMap (litRem "-D".data)) = []

/-- Core of `/\bgit\s+stash\s+drop\b/`. -/
def gitStashDropCore (l : List Char) : Bool :=
  ¬ wbAfter (((litRem "git".data l).flatMap wsPlusRem
      |>.flatMap (litRem "stash".data)).flatMap wsPlusRem
      |>.flatMap (litRem "drop".data)) = []

/-- Core of `/\bgit\s+stash\s+clear\b/`. -/
def gitStashClearCore (l : List Char) : Bool :=
  ¬ wbAfter (((litRem "git".data l).flatMap wsPlusRem
      |>.flatMap (litRem "stash".data)).flatMap wsPlusRem
      |>.flatMap (litRem "clear".data)) = []

/-- `constants.ts` `DANGEROUS_GIT_PATTERNS` (pattern, display name), in
source order. -/
def DANGEROUS_GIT_PATTERNS : List ((String → Bool) × String) :=
  [(searchWB gitCheckoutCore, "git checkout --"),
   (searchWB gitRestoreCore, "git restore"),
   (searchWB gitResetHardCore, "git reset --hard"),
   (searchWB gitResetMergeCore, "git reset --merge"),
   (searchWB gitCleanCore, "git clean --force"),
   (searchWB gitPushCore, "git push --force"),
   (searchWB gitBranchDCore, "git branch -D"),
   (searchWB gitStashDropCore, "git stash drop"),
   (searchWB gitStashClearCore, "git stash clear")]

/-- Core of `/\bfind\b.*\s-delete\b/`. -/
def findDeleteCore (l : List Char) : Bool :=
  ¬ wbAfter (((wbAfter (litRem "find".data l)).flatMap dotStarRem).flatMap
      wsOneRem |>.flatMap (litRem "-delete".data)) = []

/-- Core of `/\bfind\b.*-exec\s+(rm|mv|cp)\b/`. -/
def findExecCore (l : List Char) : Bool :=
  let pre := ((wbAfter (litRem "find".data l)).flatMap dotStarRem).flatMap
      (litRem "-exec".data) |>.flatMap wsPlusRem
  ¬ wbAfter (pre.flatMap (litRem "rm".data) ++ pre.flatMap (litRem "mv".data)
      ++ pre.flatMap (litRem "cp".data)) = []

/-- Remainders after `(-[^\s]+\s+)*` (fueled; each iteration consumes at
least three characters, so fuel `l.length` is sufficient). -/
def xargsGroupRem : Nat → List Char → List (List Char)
  | 0, l => [l]
  | n + 1, l =>
    l :: (((litRem "-".data l).flatMap nonWsPlusRem).flatMap wsPlusRem).flatMap
      (xargsGroupRem n)

/-- Core of `/\bxargs\s+(-[^\s]+\s+)*(rm|mv|cp)\b/`. -/
def xargsCore (l : List Char) : Bool :=
  let pre := ((litRem "xargs".data l).flatMap wsPlusRem).flatMap
      fun r => xargsGroupRem r.length r
  ¬ wbAfter (pre.flatMap (litRem "rm".data) ++ pre.flatMap (litRem "mv".data)
      ++ pre.flatMap (litRem "cp".data)) = []

/-- Core of `/\brsync\b.*--delete\b/`. -/
def rsyncCore (l : List Char) : Bool :=
  ¬ wbAfter (((wbAfter (litRem "rsync".data l)).flatMap dotStarRem).flatMap
      (litRem "--delete".data)) = []

/-- `constants.ts` `DANGEROUS_PATTERNS` (pattern, display name), in source
order. -/
def DANGEROUS_PATTERNS : List ((String → Bool) × String) :=
  [(searchWB findDeleteCore, "find -delete"),
   (searchWB findExecCore, "find -exec"),
   (searchWB xargsCore, "xargs"),
   (searchWB rsyncCore, "rsync --delete")]

/-- The character class `[^\s;|&>]` of the third redirect alternative. -/
def redirClassOk (c : Char) : Bool :=
  ¬ (jsWs c ∨ c = ';' ∨ c = '|' ∨ c = '&' ∨ c = '>')

/-- One match attempt of `constants.ts` `REDIRECT_PATTERN`
`/>{1,2}\s*(?:"([^"]+)"|'([^']+)'|([^\s;|&>]+))/g` at a position just after a
first `>`, with the rest of the input in `r`: an optional second `>`, then
`\s*`, then the three alternatives in order (a quoted alternative that fails
falls through to the bare-token class, which accepts the quote character).
Returns the captured target and the remaining input after the match, or
`none` when no alternative matches here. -/
def redirGtSkip (r : List Char) : List Char :=
  match r with
  | '>' :: rr => rr
  | _ => r

/-- The quoted alternative `"([^"]+)"` (resp. `'([^']+)'`) at `q :: r3`, with
fallthrough to the bare-token class `[^\s;|&>]+` (which accepts the quote
character) when the quoted alternative fails. -/
def redirQuotedAlt (q : Char) (r2 r3 : List Char) : Option (List Char × List Char) :=
  let cont := r3.takeWhile (· ≠ q)
  if ¬ cont = [] ∧ ¬ r3.drop cont.length = [] then
    some (cont, r3.drop (cont.length + 1))
  else
    let tok := r2.takeWhile redirClassOk
    some (tok, r2.drop tok.length)

/-- The alternation `(?:"([^"]+)"|'([^']+)'|([^\s;|&>]+))` of the redirect
pattern, applied after `>{1,2}\s*`. -/
def redirAlts (r2 : List Char) : Option (List Char × List Char) :=
  match r2 with
  | '"' :: r3 => redirQuotedAlt '"' r2 r3
  | '\'' :: r3 => redirQuotedAlt '\'' r2 r3
  | _ =>
    let tok := r2.takeWhile redirClassOk
    if ¬ tok = [] then some (tok, r2.drop tok.length)
    else none

def redirAttempt (r : List Char) : Option (List Char × List Char) :=
  redirAlts ((redirGtSkip r).dropWhile jsWs)

/-- Scanner for `matchAll` of `REDIRECT_PATTERN`: at every `>`, try
`redirAttempt`; on success capture and continue after the match, otherwise
continue scanning.  Fueled; every step consumes at least one character, so
fuel `l.length` is sufficient. -/
def redirectScanF : Nat → List Char → List (List Char)
  | 0, _ => []
  | _ + 1, [] => []
  | n + 1, c :: r =>
    if c = '>' then
      match redirAttempt r with
      | some (cap, cont) => cap :: redirectScanF n cont
      | none => redirectScanF n r
    else redirectScanF n r

/-- The redirect targets captured in a command string. -/
def redirectMatches (s : String) : List String :=
  (redirectScanF (s.data.length + 1) s.data).map mkStr

/-! ## Command analyzer (`command-analyzer.ts`) -/

/-- The verdict type of every check (`AnalysisResult` in the source). -/
structure AnalysisResult where
  blocked : Bool
  reason : Option String
  deriving DecidableEq, Repr

/-- `constants.ts` `DANGEROUS_COMMANDS`. -/
def DANGEROUS_COMMANDS : List String :=
  ["rm", "rmdir", "unlink", "shred", "mv", "cp", "chmod", "chown", "chgrp",
   "truncate", "dd", "ln"]

/-- `command-analyzer.ts` `DELETE_COMMANDS`. -/
def DELETE_COMMANDS : List String :=
  ["rm", "rmdir", "unlink", "shred"]

/-- Scanner for `command.match(/["']([^"']+)["']/g)`: the contents of every
maximal quoted substring with nonempty content (either quote character opens
and either closes).  `pending = some acc` means we are past an opening quote
with reversed content `acc`. -/
def quotedMatchesGo (pending : Option (List Char)) : List Char → List (List Char)
  | [] => []
  | c :: r =>
    match pending with
    | none =>
      if isQuote c then quotedMatchesGo (some []) r
      else quotedMatchesGo none r
    | some acc =>
      if isQuote c then
        if acc = [] then quotedMatchesGo (some []) r
        else acc.reverse :: quotedMatchesGo none r
      else quotedMatchesGo (some (c :: acc)) r

/-- Scanner for `command.replace(/["'][^"']*["']/g, "")`: remove every quoted
substring (possibly empty content); an unmatched opening quote is kept. -/
def stripQuotedGo (pending : Option (Char × List Char)) : List Char → List Char
  | [] =>
    match pending with
    | none => []
    | some (q, acc) => q :: acc.reverse
  | c :: r =>
    match pending with
    | none =>
      if isQuote c then stripQuotedGo (some (c, [])) r
      else c :: stripQuotedGo none r
    | some (q, acc) =>
      if isQuote c then stripQuotedGo none r
      else stripQuotedGo (some (q, c :: acc)) r

/-- Everything after the first `=` in a token
(`t.split("=").slice(1).join("=")`). -/
def afterFirstEq (t : String) : String :=
  mkStr ((t.data.dropWhile (· ≠ '=')).drop 1)

/-- `CommandAnalyzer.extractPaths`: quoted substrings verbatim, then the
unquoted non-flag tokens from index 1 on (an `name=value` token contributes
its value; empty values are dropped). -/
def extractPaths (command : String) : List String :=
  let quoted := (quotedMatchesGo none command.data).map mkStr
  let tokens := (jsSplitWs (mkStr (stripQuotedGo none command.data))).filter
    fun t => ¬ strStartsWith t "-"
  let tokenPaths := (tokens.drop 1).filterMap fun t =>
    let v := if strContainsChar t '=' then afterFirstEq t else t
    if v = "" then none else some v
  quoted ++ tokenPaths

/-- The `sudo`/`command` wrapper skip: drop leading flag tokens and one
optional `--`; the head of the result is the wrapped command. -/
def skipFlags : List String → List String
  | [] => []
  | t :: r =>
    if t = "--" then r
    else if strStartsWith t "-" then skipFlags r
    else t :: r

/-- The `env` options that consume a following argument. -/
def envOptsWithArgs : List String :=
  ["-u", "-C", "-S", "--unset", "--chdir", "--split-string"]

/-- The `env` wrapper skip: drop `--`, options with their argument, other
flags and `NAME=value` assignments; the head of the result is the wrapped
command. -/
def envSkip : List String → List String
  | [] => []
  | t :: r =>
    if t = "--" then r
    else if t ∈ envOptsWithArgs then
      match r with
      | [] => []
      | _ :: r2 => envSkip r2
    else if strStartsWith t "-" ∨ strContainsChar t '=' then envSkip r
    else t :: r

/-- `CommandAnalyzer.getBaseCommand`: the basenamed first token, looking
through `sudo`/`command`/`env` wrappers. -/
def getBaseCommand (command : String) : String :=
  match jsSplitWs (jsTrim command) with
  | [] => ""
  | first :: rest =>
    if first = "sudo" ∨ first = "command" then
      basenameStr ((skipFlags rest).headD "")
    else if first = "env" then
      basenameStr ((envSkip rest).headD "")
    else basenameStr first

/-- Trim an accumulated (reversed) segment and keep it only if nonempty
(`if (current.trim()) commands.push(current.trim())`). -/
def finishSeg (cur : List Char) : List (List Char) :=
  let t := trimList cur.reverse
  if t = [] then [] else [t]

/-- `CommandAnalyzer.splitCommands`: the quote/escape-aware chain splitter.
`cur` is the accumulated current segment, reversed. -/
def splitCmdsAux (sq dq : Bool) (cur : List Char) : List Char → List (List Char)
  | [] => finishSeg cur
  | [c] =>
    if c = '\\' ∧ ¬ sq then finishSeg ('\\' :: cur)
    else if c = '\'' ∧ ¬ dq then finishSeg ('\'' :: cur)
    else if c = '"' ∧ ¬ sq then finishSeg ('"' :: cur)
    else if ¬ sq ∧ ¬ dq ∧ (c = ';' ∨ c = '|') then finishSeg cur
    else finishSeg (c :: cur)
  | c :: c2 :: r =>
    if c = '\\' ∧ ¬ sq then splitCmdsAux sq dq (c2 :: '\\' :: cur) r
    else if c = '\'' ∧ ¬ dq then splitCmdsAux (¬ sq) dq ('\'' :: cur) (c2 :: r)
    else if c = '"' ∧ ¬ sq then splitCmdsAux sq (¬ dq) ('"' :: cur) (c2 :: r)
    else if ¬ sq ∧ ¬ dq ∧ ((c = '&' ∧ c2 = '&') ∨ (c = '|' ∧ c2 = '|')) then
      finishSeg cur ++ splitCmdsAux false false [] r
    else if ¬ sq ∧ ¬ dq ∧ (c = ';' ∨ (c = '|' ∧ ¬ c2 = '|')) then
      finishSeg cur ++ splitCmdsAux false false [] (c2 :: r)
    else splitCmdsAux sq dq (c :: cur) (c2 :: r)

/-- Split a raw command string into its chain links. -/
def splitCommands (command : String) : List String :=
  (splitCmdsAux false false [] command.data).map mkStr

/-- First matching rule of a pattern list. -/
def firstRuleMatch : List ((String → Bool) × String) → String → Option String
  | [], _ => none
  | (test, name) :: rest, s =>
    if test s then some name else firstRuleMatch rest s

/-- `CommandAnalyzer.checkDangerousGitCommands`. -/
def checkDangerousGitCommands (command : String) : AnalysisResult :=
  match firstRuleMatch DANGEROUS_GIT_PATTERNS command with
  | some name => ⟨true, some ("Dangerous git command blocked: " ++ name)⟩
  | none => ⟨false, none⟩

/-- `CommandAnalyzer.resolvePath`: expand, then resolve against the tracked
base if one is given (otherwise the expanded string is used as is). -/
def resolvePath (env : Env) (wd : String) (path : String)
    (base : Option String) : String :=
  let expanded := expand env wd path
  match base with
  | some b => posixResolve b expanded
  | none => expanded

/-- `CommandAnalyzer.isPathAllowed`. -/
def isPathAllowed (env : Env) (wd : String) (path : String)
    (allowDevicePaths : Bool) (base : Option String) : Bool :=
  let resolved := resolvePath env wd path base
  if isWithinWorkingDir env wd resolved then true
  else if isPlatformPath env wd resolved then true
  else if allowDevicePaths then isSafeForWrite env wd resolved
  else isTempPath env wd resolved

/-- `CommandAnalyzer.checkProtectedPath`. -/
def checkProtectedPath (env : Env) (wd : String) (path context : String)
    (base : Option String) : AnalysisResult :=
  let protection := isProtectedPath env wd (resolvePath env wd path base)
  if protection.prot then
    ⟨true, some (context ++ " targets protected path: "
      ++ protection.name.getD "undefined")⟩
  else ⟨false, none⟩

/-- The per-target loop of `CommandAnalyzer.checkRedirects`. -/
def checkRedirectsGo (env : Env) (wd : String) : List String → AnalysisResult
  | [] => ⟨false, none⟩
  | p :: rest =>
    if p = "" ∨ strStartsWith p "&" then checkRedirectsGo env wd rest
    else if ¬ isSafeForWrite env wd p ∧ ¬ isWithinWorkingDir env wd p ∧
        ¬ isPlatformPath env wd p then
      ⟨true, some ("Redirect to path outside working directory: " ++ p)⟩
    else
      let r := checkProtectedPath env wd p "Redirect" none
      if r.blocked then r else checkRedirectsGo env wd rest

/-- `CommandAnalyzer.checkRedirects`: every captured redirect target must be
safe-for-write, inside the working directory, or a platform path, and not
protected; targets starting with `&` are skipped. -/
def checkRedirects (env : Env) (wd : String) (command : String) : AnalysisResult :=
  checkRedirectsGo env wd (redirectMatches command)

/-- `CommandAnalyzer.isCdCommand`. -/
def isCdCommand (command : String) : Bool :=
  getBaseCommand command = "cd"

/-- The anchored regex `/^cd\s+["']([^"']+)["']/` of `extractCdTarget`. -/
def cdQuotedMatch (s : String) : Option String :=
  match s.data with
  | 'c' :: 'd' :: rest =>
    let ws := rest.takeWhile jsWs
    if ws = [] then none
    else
      match rest.drop ws.length with
      | q :: r2 =>
        if isQuote q then
          let cont := r2.takeWhile fun c => ¬ isQuote c
          if ¬ cont = [] ∧ ¬ r2.drop cont.length = [] then some (mkStr cont)
          else none
        else none
      | [] => none
  | _ => none

/-- `CommandAnalyzer.extractCdTarget`: quoted target first, else the first
non-flag token, else the home directory for a bare `cd`; a missing token is
`null` (`tokens[i] || null` also turns `""` into `null`). -/
def extractCdTarget (env : Env) (command : String) : Option String :=
  let trimmed := jsTrim command
  match cdQuotedMatch trimmed with
  | some t => some t
  | none =>
    let tokens := jsSplitWs trimmed
    if ¬ tokens.headD "" = "cd" then none
    else if tokens.length = 1 then some env.home
    else
      match (tokens.drop 1).dropWhile (fun t => strStartsWith t "-") with
      | [] => none
      | t :: _ => if t = "" then none else some t

/-- The per-path loop of `checkDangerousPatterns`. -/
def dangerousPathsLoop (env : Env) (wd : String) (name : String)
    (base : Option String) : List String → AnalysisResult
  | [] => ⟨false, none⟩
  | path :: rest =>
    let resolved := resolvePath env wd path base
    if ¬ isWithinWorkingDir env wd resolved ∧ ¬ isTempPath env wd resolved ∧
        ¬ isPlatformPath env wd resolved then
      ⟨true, some ("Command \"" ++ name
        ++ "\" targets path outside working directory: " ++ path)⟩
    else
      let r := checkProtectedPath env wd path ("Command \"" ++ name ++ "\"") base
      if r.blocked then r else dangerousPathsLoop env wd name base rest

/-- The pattern loop of `CommandAnalyzer.checkDangerousPatterns`. -/
def checkDangerousPatternsGo (env : Env) (wd : String) (command : String)
    (base : Option String) : List ((String → Bool) × String) → AnalysisResult
  | [] => ⟨false, none⟩
  | (test, name) :: rest =>
    if ¬ test command then checkDangerousPatternsGo env wd command base rest
    else
      let r := dangerousPathsLoop env wd name base (extractPaths command)
      if r.blocked then r else checkDangerousPatternsGo env wd command base rest

/-- `CommandAnalyzer.checkDangerousPatterns`. -/
def checkDangerousPatterns (env : Env) (wd : String) (command : String)
    (base : Option String) : AnalysisResult :=
  checkDangerousPatternsGo env wd command base DANGEROUS_PATTERNS

/-- `CommandAnalyzer.checkCpCommand`: only the last path (the destination) is
validated, with device paths allowed, then checked against protection. -/
def checkCpCommand (env : Env) (wd : String) (paths : List String)
    (base : Option String) : AnalysisResult :=
  match paths.getLast? with
  | none => ⟨false, none⟩
  | some dest =>
    if ¬ isPathAllowed env wd dest true base then
      ⟨true, some ("Command \"cp\" targets path outside working directory: "
        ++ resolvePath env wd dest base)⟩
    else checkProtectedPath env wd dest "Command \"cp\"" base

/-- The class `[^"'\s]` of the `dd` destination capture. -/
def ddClassOk (c : Char) : Bool :=
  ¬ (c = '"' ∨ c = '\'' ∨ jsWs c)

/-- First match of `/\bof=["']?([^"'\s]+)["']?/`: the captured `of=`
destination of a `dd` command. -/
def ddScan (prev : Option Char) : List Char → Option String
  | [] => none
  | c :: r =>
    let cap :=
      if "of=".data.isPrefixOf (c :: r) ∧ nonWordOpt prev then
        let r0 := (c :: r).drop 3
        let r1 := match r0 with
          | q :: rr => if isQuote q then rr else r0
          | [] => r0
        r1.takeWhile ddClassOk
      else []
    if ¬ cap = [] then some (mkStr cap) else ddScan (some c) r

/-- `CommandAnalyzer.checkDdCommand`: only the `of=` destination is
validated, with device paths allowed. -/
def checkDdCommand (env : Env) (wd : String) (command : String)
    (base : Option String) : AnalysisResult :=
  match ddScan none command.data with
  | none => ⟨false, none⟩
  | some dest =>
    if ¬ isPathAllowed env wd dest true base then
      ⟨true, some ("Command \"dd\" targets path outside working directory: "
        ++ resolvePath env wd dest base)⟩
    else checkProtectedPath env wd dest "Command \"dd\"" base

/-- The source loop of `checkMvCommand` (sources do not allow device
paths). -/
def mvSourcesLoop (env : Env) (wd : String) (base : Option String) :
    List String → AnalysisResult
  | [] => ⟨false, none⟩
  | source :: rest =>
    if ¬ isPathAllowed env wd source false base then
      ⟨true, some ("Command \"mv\" targets path outside working directory: "
        ++ resolvePath env wd source base)⟩
    else
      let r := checkProtectedPath env wd source "Command \"mv\"" base
      if r.blocked then r else mvSourcesLoop env wd base rest

/-- `CommandAnalyzer.checkMvCommand`: the last path is the destination
(device paths allowed); every other path is a source (no device paths). -/
def checkMvCommand (env : Env) (wd : String) (paths : List String)
    (base : Option String) : AnalysisResult :=
  match paths.getLast? with
  | none => ⟨false, none⟩
  | some dest =>
    if ¬ isPathAllowed env wd dest true base then
      ⟨true, some ("Command \"mv\" targets path outside working directory: "
        ++ resolvePath env wd dest base)⟩
    else
      let destResult := checkProtectedPath env wd dest "Command \"mv\"" base
      if destResult.blocked then destResult
      else mvSourcesLoop env wd base paths.dropLast

/-- The shared per-path loop of `checkDeleteCommand` and
`checkWriteCommand`. -/
def pathsRuleLoop (env : Env) (wd : String) (baseCmd : String)
    (allowDevicePaths : Bool) (base : Option String) :
    List String → AnalysisResult
  | [] => ⟨false, none⟩
  | path :: rest =>
    if ¬ isPathAllowed env wd path allowDevicePaths base then
      ⟨true, some ("Command \"" ++ baseCmd
        ++ "\" targets path outside working directory: "
        ++ resolvePath env wd path base)⟩
    else
      let r := checkProtectedPath env wd path
        ("Command \"" ++ baseCmd ++ "\"") base
      if r.blocked then r else pathsRuleLoop env wd baseCmd allowDevicePaths base rest

/-- `CommandAnalyzer.checkDeleteCommand`: every path, no device paths. -/
def checkDeleteCommand (env : Env) (wd : String) (baseCmd : String)
    (paths : List String) (base : Option String) : AnalysisResult :=
  pathsRuleLoop env wd baseCmd false base paths

/-- `CommandAnalyzer.checkWriteCommand`: every path; only `truncate` may
target device paths. -/
def checkWriteCommand (env : Env) (wd : String) (baseCmd : String)
    (paths : List String) (base : Option String) : AnalysisResult :=
  pathsRuleLoop env wd baseCmd (baseCmd = "truncate") base paths

/-- `CommandAnalyzer.checkDangerousCommand`: dispatch on the base command. -/
def checkDangerousCommand (env : Env) (wd : String) (command : String)
    (base : Option String) : AnalysisResult :=
  let baseCmd := getBaseCommand command
  if ¬ baseCmd ∈ DANGEROUS_COMMANDS then ⟨false, none⟩
  else
    let paths := extractPaths command
    if baseCmd = "cp" then checkCpCommand env wd paths base
    else if baseCmd = "dd" then checkDdCommand env wd command base
    else if baseCmd = "mv" then checkMvCommand env wd paths base
    else if baseCmd ∈ DELETE_COMMANDS then
      checkDeleteCommand env wd baseCmd paths base
    else checkWriteCommand env wd baseCmd paths base

/-- The `cd` step of the `analyze` loop: the extracted target (when truthy)
is expanded and resolved against the tracked directory. -/
def cdAdvance (env : Env) (wd cur trimmed : String) : String :=
  match extractCdTarget env trimmed with
  | none => cur
  | some t => if t = "" then cur else posixResolve cur (expand env wd t)

/-- The per-link loop of `CommandAnalyzer.analyze`, tracking the current
directory `cur` (initialized to the bound working directory). -/
def analyzeLoop (env : Env) (wd : String) (hasCd : Bool) :
    List String → String → AnalysisResult
  | [], _ => ⟨false, none⟩
  | cmd :: rest, cur =>
    let trimmed := jsTrim cmd
    if trimmed = "" then analyzeLoop env wd hasCd rest cur
    else if isCdCommand trimmed then
      analyzeLoop env wd hasCd rest (cdAdvance env wd cur trimmed)
    else
      let base := if ¬ cur = wd then some cur else none
      let patR := if hasCd then checkDangerousPatterns env wd trimmed base
        else ⟨false, none⟩
      if patR.blocked then patR
      else
        let r := checkDangerousCommand env wd trimmed base
        if r.blocked then r else analyzeLoop env wd hasCd rest cur

/-- `CommandAnalyzer.analyze`: git check, redirect check, chain split, the
compound-pattern check (once on the raw command when no link is a `cd`,
otherwise per-link inside the loop), then the per-link loop with directory
tracking. -/
def analyze (env : Env) (wd : String) (command : String) : AnalysisResult :=
  let gitResult := checkDangerousGitCommands command
  if gitResult.blocked then gitResult
  else
    let redirectResult := checkRedirects env wd command
    if redirectResult.blocked then redirectResult
    else
      let commands := splitCommands command
      let hasCd := commands.any fun cmd => isCdCommand (jsTrim cmd)
      let patternResult := if hasCd then ⟨false, none⟩
        else checkDangerousPatterns env wd command none
      if patternResult.blocked then patternResult
      else analyzeLoop env wd hasCd commands wd

/-- `CommandAnalyzer.validatePath`: the empty path is allowed; otherwise the
path must be safe-for-write, inside the working directory, or a platform
path, and not protected. -/
def validatePath (env : Env) (wd : String) (path : String) : AnalysisResult :=
  if path = "" then ⟨false, none⟩
  else if ¬ isSafeForWrite env wd path ∧ ¬ isWithinWorkingDir env wd path ∧
      ¬ isPlatformPath env wd path then
    ⟨true, some ("File operation targets path outside working directory: "
      ++ path)⟩
  else checkProtectedPath env wd path "File operation" none

/-! ## Concrete environments used by witnesses and counterexamples -/

/-- A symlink-free environment: home `/home/u`, no extra variables, every
path exists and canonicalizes to its normalized form. -/
def env0 : Env :=
  ⟨"/home/u", fun _ => none, fun s => some (posixResolve "/" s)⟩

/-- Like `env0`, except that `/wd/link` is a symlink resolving to
`/outside/target`. -/
def envSym : Env :=
  ⟨"/home/u", fun _ => none,
    fun s => if s = "/wd/link" then some "/outside/target"
      else some (posixResolve "/" s)⟩

/-! ## Helper lemmas about `isWithinWorkingDir` -/

theorem dropCommonPrefix_fst_nil_iff :
    ∀ (a b : List String), (dropCommonPrefix a b).1 = [] ↔ a <+: b
  | [], b => by simp [dropCommonPrefix]
  | x :: xs, [] => by
    simp [dropCommonPrefix]
  | x :: xs, y :: ys => by
    by_cases h : x = y
    · subst h
      simp only [dropCommonPrefix, if_pos rfl, List.cons_prefix_cons]
      simpa using dropCommonPrefix_fst_nil_iff xs ys
    · simp [dropCommonPrefix, if_neg h, List.cons_prefix_cons, h]

theorem dropCommonPrefix_of_leading :
    ∀ (a b : List String), a <+: b →
      dropCommonPrefix a b = ([], b.drop a.length)
  | [], b, _ => by simp [dropCommonPrefix]
  | x :: xs, [], h => by
    simp at h
  | x :: xs, y :: ys, h => by
    obtain ⟨hxy, htail⟩ := List.cons_prefix_cons.mp h
    subst hxy
    simpa [dropCommonPrefix] using dropCommonPrefix_of_leading xs ys htail

theorem joinSegs_cons_data (a : String) (t : List String) :
    ∃ x, (joinSegs (a :: t)).data = a.data ++ x := by
  cases t with
  | nil => exact ⟨[], by simp [joinSegs]⟩
  | cons b r =>
    refine ⟨('/' :: (joinSegs (b :: r)).data), ?_⟩
    show (a ++ "/" ++ joinSegs (b :: r)).data = _
    simp [String.data_append]

/-- If the canonical segment list of the working directory is not a prefix of
that of the path's canonical resolution, `isWithinWorkingDir` is `false`. -/
theorem within_eq_false_of_not_prefix (env : Env) (wd p rwd : String)
    (hwd : env.realpath wd = some rwd)
    (hout : ¬ canonComps rwd <+: canonComps (resolveReal env wd p)) :
    isWithinWorkingDir env wd p = false := by
  unfold isWithinWorkingDir
  rw [hwd]
  set rp := resolveReal env wd p with hrp
  by_cases heq : rp = rwd
  · exact absurd (heq ▸ List.prefix_refl _) hout
  · simp only [if_neg heq]
    have hfst : ¬ (dropCommonPrefix (canonComps rwd) (canonComps rp)).1 = [] := by
      intro h
      exact hout ((dropCommonPrefix_fst_nil_iff _ _).mp h)
    set pr := dropCommonPrefix (canonComps rwd) (canonComps rp) with hpr
    have hrel : nodeRelative rwd rp =
        joinSegs (List.replicate pr.1.length ".." ++ pr.2) := rfl
    obtain ⟨k, hk⟩ : ∃ k, pr.1.length = k + 1 := by
      cases hlen : pr.1.length with
      | zero => exact absurd (List.length_eq_zero.mp hlen) hfst
      | succ n => exact ⟨n, rfl⟩
    have hstart : strStartsWith (nodeRelative rwd rp) ".." = true := by
      rw [hrel, hk]
      obtain ⟨x, hx⟩ := joinSegs_cons_data ".."
        (List.replicate k ".." ++ pr.2)
      simp only [List.replicate_succ, List.cons_append]
      unfold strStartsWith
      rw [List.isPrefixOf_iff_prefix, hx]
      exact List.prefix_append _ _
    by_cases hemp : nodeRelative rwd rp = ""
    · simp [hemp]
    · simp [hemp, hstart]

theorem splitSlash_no_slash : ∀ (l : List Char), ∀ s ∈ splitSlash l, '/' ∉ s
  | [], s, hs => by
    simp only [splitSlash, List.mem_singleton] at hs
    simp [hs]
  | c :: r, s, hs => by
    by_cases hc : c = '/'
    · rw [splitSlash, if_pos hc] at hs
      rcases List.mem_cons.mp hs with h | h
      · simp [h]
      · exact splitSlash_no_slash r s h
    · rw [splitSlash, if_neg hc] at hs
      cases hrec : splitSlash r with
      | nil =>
        rw [hrec] at hs
        simp only [List.mem_singleton] at hs
        subst hs
        simp only [List.mem_singleton]
        exact fun h => hc h.symm
      | cons s0 ss =>
        rw [hrec] at hs
        rcases List.mem_cons.mp hs with h | h
        · subst h
          intro hmem
          rcases List.mem_cons.mp hmem with h' | h'
          · exact hc h'.symm
          · exact splitSlash_no_slash r s0 (hrec ▸ List.mem_cons_self _ _) h'
        · exact splitSlash_no_slash r s (hrec ▸ List.mem_cons_of_mem _ h)

theorem normSegs_forall (P : List Char → Prop) :
    ∀ (l : List (List Char)) (stack : List (List Char)),
      (∀ s ∈ stack, P s) →
      (∀ s ∈ l, s ≠ [] → s ≠ ['.'] → s ≠ ['.', '.'] → P s) →
      ∀ s ∈ normSegs stack l, P s
  | [], stack, hstack, _, s, hs => by
    rw [normSegs] at hs
    exact hstack s (List.mem_reverse.mp hs)
  | seg :: rest, stack, hstack, hl, s, hs => by
    by_cases h1 : seg = [] ∨ seg = ['.']
    · rw [normSegs, if_pos h1] at hs
      exact normSegs_forall P rest stack hstack
        (fun t ht => hl t (List.mem_cons_of_mem _ ht)) s hs
    · by_cases h2 : seg = ['.', '.']
      · rw [normSegs, if_neg h1, if_pos h2] at hs
        exact normSegs_forall P rest (stack.drop 1)
          (fun t ht => hstack t (List.mem_of_mem_drop ht))
          (fun t ht => hl t (List.mem_cons_of_mem _ ht)) s hs
      · rw [normSegs, if_neg h1, if_neg h2] at hs
        push_neg at h1
        refine normSegs_forall P rest (seg :: stack) ?_
          (fun t ht => hl t (List.mem_cons_of_mem _ ht)) s hs
        intro t ht
        rcases List.mem_cons.mp ht with h | h
        · exact h ▸ hl seg (List.mem_cons_self _ _) h1.1 h1.2 h2
        · exact hstack t h

theorem canonComps_mem (x s : String) (h : s ∈ canonComps x) :
    s.data ≠ [] ∧ '/' ∉ s.data := by
  unfold canonComps at h
  obtain ⟨seg, hseg, hmk⟩ := List.mem_map.mp h
  have hdata : s.data = seg := by rw [← hmk]; rfl
  rw [hdata]
  have := normSegs_forall (fun t => t ≠ [] ∧ '/' ∉ t)
    (splitSlash x.data) [] (by simp)
    (fun t ht hne _ _ => ⟨hne, splitSlash_no_slash x.data t ht⟩) seg hseg
  exact this

/-- If the canonical segment list of the working directory is a prefix of
that of the path's canonical resolution — and the remaining segments, when
the two canonical paths are not literally equal, are nonempty with a head
not beginning in `..` — then `isWithinWorkingDir` is `true`. -/
theorem within_eq_true_of_prefix (env : Env) (wd p rwd : String)
    (hwd : env.realpath wd = some rwd)
    (hpre : canonComps rwd <+: canonComps (resolveReal env wd p))
    (hok : resolveReal env wd p = rwd ∨
      (¬ (canonComps (resolveReal env wd p)).drop (canonComps rwd).length = [] ∧
        ¬ strStartsWith
          (((canonComps (resolveReal env wd p)).drop
            (canonComps rwd).length).headD "") "..")) :
    isWithinWorkingDir env wd p = true := by
  unfold isWithinWorkingDir
  rw [hwd]
  set rp := resolveReal env wd p with hrpdef
  by_cases heq : rp = rwd
  · simp [heq]
  · simp only [if_neg heq]
    rcases hok with hok | ⟨hne, hhead⟩
    · exact absurd hok heq
    · set rest := (canonComps rp).drop (canonComps rwd).length with hrest
      obtain ⟨h, t, hht⟩ : ∃ h t, rest = h :: t := by
        cases hc : rest with
        | nil => exact absurd hc hne
        | cons h t => exact ⟨h, t, rfl⟩
      have hrel : nodeRelative rwd rp = joinSegs rest := by
        unfold nodeRelative
        rw [dropCommonPrefix_of_leading _ _ hpre]
        simp
      have hmem : h ∈ canonComps rp := by
        have : h ∈ rest := hht ▸ List.mem_cons_self _ _
        exact List.mem_of_mem_drop (hrest ▸ this)
      obtain ⟨hdne, hslash⟩ := canonComps_mem rp h hmem
      obtain ⟨x, hx⟩ := joinSegs_cons_data h t
      have hxdata : (nodeRelative rwd rp).data = h.data ++ x := by
        rw [hrel, hht]; exact hx
      have hnotstart : (x = [] ∨ x.headD ' ' = '/') := by
        cases t with
        | nil =>
          left
          have h2 : h.data ++ x = h.data ++ [] := by
            rw [← hx]
            show (joinSegs [h]).data = _
            simp [joinSegs]
          exact List.append_cancel_left h2
        | cons b r =>
          right
          have : (joinSegs (h :: b :: r)).data =
              h.data ++ ('/' :: (joinSegs (b :: r)).data) := by
            show (h ++ "/" ++ joinSegs (b :: r)).data = _
            simp [String.data_append]
          have h2 : h.data ++ x = h.data ++ ('/' :: (joinSegs (b :: r)).data) := by
            rw [← hx, this]
          have h3 := List.append_cancel_left h2
          simp [h3]
      have hempty : ¬ nodeRelative rwd rp = "" := by
        intro hcon
        have : (nodeRelative rwd rp).data = [] := by rw [hcon]
        rw [hxdata] at this
        exact hdne (List.append_eq_nil.mp this).1
      have hstart2 : ¬ strStartsWith (nodeRelative rwd rp) ".." = true := by
        intro hcon
        unfold strStartsWith at hcon
        rw [List.isPrefixOf_iff_prefix, hxdata] at hcon
        have hhd : rest.headD "" = h := by rw [hht]; rfl
        rw [hhd] at hhead
        cases hcd : h.data with
        | nil => exact hdne hcd
        | cons c1 cr =>
          cases hcr : cr with
          | nil =>
            rw [hcd, hcr] at hcon
            obtain ⟨ttail, httail⟩ := hcon
            have hc1 : c1 = '.' := by
              have := congrArg (List.headD · ' ') httail.symm
              simpa using this
            have hx2 : '.' :: ttail = x := by
              have := httail
              simp only [List.cons_append, List.singleton_append] at this
              exact (List.cons.injEq _ _ _ _).mp this |>.2
            rcases hnotstart with hx0 | hx0
            · rw [← hx2] at hx0; exact absurd hx0 (by simp)
            · rw [← hx2] at hx0; simp at hx0
          | cons c2 crr =>
            apply hhead
            unfold strStartsWith
            rw [List.isPrefixOf_iff_prefix]
            have : "..".data <+: c1 :: c2 :: crr ++ x := by
              rw [hcd, hcr] at hcon
              simpa using hcon
            have hcc : c1 = '.' ∧ c2 = '.' := by
              obtain ⟨tt, htt⟩ := this
              have h1 := congrArg (List.headD · ' ') htt.symm
              have h2 := congrArg (List.headD ·.tail ' ') htt.symm
              constructor
              · simpa using h1
              · simpa using h2
            rw [hcd, hcr, hcc.1, hcc.2]
            exact ⟨crr, rfl⟩
      have hstart3 : ¬ strStartsWith (nodeRelative rwd rp) "/" = true := by
        intro hcon
        unfold strStartsWith at hcon
        rw [List.isPrefixOf_iff_prefix, hxdata] at hcon
        obtain ⟨tt, htt⟩ := hcon
        cases hcd : h.data with
        | nil => exact hdne hcd
        | cons c1 cr =>
          rw [hcd] at htt
          have : c1 = '/' := by
            have := congrArg (List.headD · ' ') htt.symm
            simpa using this
          exact hslash (hcd ▸ (this ▸ List.mem_cons_self c1 cr))
      simp [hempty, hstart2, hstart3]

/-! ## Claim theorems -/

/-- C1: for every path string whose canonical resolution (expanding `~` and
environment variables, then following symlinks at every component) lies
outside the canonical working directory — i.e. the canonical working
directory's segment list is not a prefix of the canonical resolution's
segment list — `isWithinWorkingDir` returns `false`; in particular this holds
for a symlink whose own literal location is lexically inside the working
directory but which resolves outside (`/wd/link` under `envSym`). -/
theorem C1_within_false_when_canonically_outside :
    (∀ (env : Env) (wd p rwd : String),
      env.realpath wd = some rwd →
      ¬ canonComps rwd <+: canonComps (resolveReal env wd p) →
      isWithinWorkingDir env wd p = false) ∧
    strStartsWith "/wd/link" "/wd/" = true ∧
    resolveReal envSym "/wd" "/wd/link" = "/outside/target" ∧
    isWithinWorkingDir envSym "/wd" "/wd/link" = false := by
  refine ⟨fun env wd p rwd h1 h2 => within_eq_false_of_not_prefix env wd p rwd h1 h2,
    by decide, by decide, by decide⟩

/-- Witness for C1: the universally quantified part applied to the concrete
escaping path `../outside` under `env0`, with both hypotheses discharged by
evaluation. -/
theorem C1_witness :
    isWithinWorkingDir env0 "/wd" "../outside" = false :=
  C1_within_false_when_canonically_outside.1 env0 "/wd" "../outside" "/wd"
    (by decide) (by decide)

/-- C6 counterexample: `/wd/..a` canonically resolves to a strict descendant
of the canonical working directory `/wd` (so it is strictly inside), yet
`isWithinWorkingDir` returns `false`, because Node's `relative` yields
`..a`, which `startsWith("..")` — refuting "returns true for every path
strictly inside the working directory". -/
theorem C6_counterexample :
    canonComps "/wd" <+: canonComps (resolveReal env0 "/wd" "/wd/..a") ∧
    ¬ (canonComps (resolveReal env0 "/wd" "/wd/..a")).drop
        (canonComps "/wd").length = [] ∧
    isWithinWorkingDir env0 "/wd" "/wd/..a" = false := by
  exact ⟨by decide, by decide, by decide⟩

/-- C6 (amended): `isWithinWorkingDir` returns `true` for the working
directory itself and for every path whose canonical resolution is a strict
descendant of the canonical working directory, provided the first remaining
segment does not itself begin with `..`; it returns `false` for every path
resolving outside (in particular `..`-escaping and absolute outside paths);
and it returns `false` whenever canonical resolution of the working
directory fails (resolution failure of the path itself falls back to the
lexical resolution inside `resolveReal`). -/
theorem C6_within_characterization :
    (∀ (env : Env) (wd p rwd : String),
      env.realpath wd = some rwd →
      canonComps rwd <+: canonComps (resolveReal env wd p) →
      (resolveReal env wd p = rwd ∨
        (¬ (canonComps (resolveReal env wd p)).drop (canonComps rwd).length = [] ∧
          ¬ strStartsWith
            (((canonComps (resolveReal env wd p)).drop
              (canonComps rwd).length).headD "") "..")) →
      isWithinWorkingDir env wd p = true) ∧
    (∀ (env : Env) (wd p rwd : String),
      env.realpath wd = some rwd →
      ¬ canonComps rwd <+: canonComps (resolveReal env wd p) →
      isWithinWorkingDir env wd p = false) ∧
    (∀ (env : Env) (wd p : String),
      env.realpath wd = none → isWithinWorkingDir env wd p = false) := by
  refine ⟨fun env wd p rwd h1 h2 h3 => within_eq_true_of_prefix env wd p rwd h1 h2 h3,
    fun env wd p rwd h1 h2 => within_eq_false_of_not_prefix env wd p rwd h1 h2,
    fun env wd p h => ?_⟩
  unfold isWithinWorkingDir
  rw [h]

/-- Witness for C6: the inside case applied to the nested path `sub/x`, the
outside case applied to the absolute path `/etc/x`, and the failure case
applied to an environment whose `realpath` always fails. -/
theorem C6_witness :
    isWithinWorkingDir env0 "/wd" "sub/x" = true ∧
    isWithinWorkingDir env0 "/wd" "/etc/x" = false ∧
    isWithinWorkingDir ⟨"/home/u", fun _ => none, fun _ => none⟩ "/wd" "x" = false :=
  ⟨C6_within_characterization.1 env0 "/wd" "sub/x" "/wd" (by decide) (by decide)
      (Or.inr ⟨by decide, by decide⟩),
    C6_within_characterization.2.1 env0 "/wd" "/etc/x" "/wd" (by decide) (by decide),
    C6_within_characterization.2.2 ⟨"/home/u", fun _ => none, fun _ => none⟩
      "/wd" "x" rfl⟩

/-- C3: a command matching a dangerous git pattern makes `analyze` return
the git verdict (naming the matched rule) unchanged, before every other
check and independently of the environment and working directory; in
particular `git reset --hard` is blocked this way for every working
directory, while `git reset --soft HEAD~1` does not match the git check. -/
theorem C3_git_check_blocks_first :
    (∀ (env : Env) (wd s r : String),
      checkDangerousGitCommands s = ⟨true, some r⟩ →
      analyze env wd s = ⟨true, some r⟩) ∧
    (∀ (env : Env) (wd : String),
      analyze env wd "git reset --hard" =
        ⟨true, some "Dangerous git command blocked: git reset --hard"⟩) ∧
    checkDangerousGitCommands "git reset --soft HEAD~1" = ⟨false, none⟩ := by
  have hgen : ∀ (env : Env) (wd s r : String),
      checkDangerousGitCommands s = ⟨true, some r⟩ →
      analyze env wd s = ⟨true, some r⟩ := by
    intro env wd s r h
    unfold analyze
    rw [h]
    rfl
  exact ⟨hgen, fun env wd => hgen env wd _ _ (by decide), by decide⟩

/-- Witness for C3: the universally quantified part applied to the concrete
command `git push origin --force` (which matches the `git push --force`
rule) under `env0`. -/
theorem C3_witness :
    analyze env0 "/wd" "git push origin --force" =
      ⟨true, some "Dangerous git command blocked: git push --force"⟩ :=
  C3_git_check_blocks_first.1 env0 "/wd" "git push origin --force" _ (by decide)

theorem data_ne_nil_of_ne_empty (t : String) (h : ¬ t = "") : ¬ t.data = [] := by
  intro hd
  exact h (String.ext (by rw [hd]))

/-- C4: inside the working directory, the relative paths `.env`,
`.env.local` and `.env.production` are protected (in general every
`.env.<suffix>` whose suffix is nonempty, not exactly `example`, and whose
first character is one JS `.` can match), `.env.example` is not protected,
and `.git` itself plus every relative path beginning with `.git/` are
protected. -/
theorem C4_protected_path_rules :
    isProtectedPath env0 "/wd" "/wd/.env" = ⟨true, some ".env files"⟩ ∧
    isProtectedPath env0 "/wd" "/wd/.env.local" = ⟨true, some ".env files"⟩ ∧
    isProtectedPath env0 "/wd" "/wd/.env.production" = ⟨true, some ".env files"⟩ ∧
    isProtectedPath env0 "/wd" "/wd/.env.example" = ⟨false, none⟩ ∧
    isProtectedPath env0 "/wd" "/wd/.git" = ⟨true, some ".git directory"⟩ ∧
    isProtectedPath env0 "/wd" "/wd/.git/config" = ⟨true, some ".git directory"⟩ ∧
    (∀ t : String, ¬ t = "" → ¬ t = "example" → dotOk (t.data.headD ' ') →
      protLookup PROTECTED_PATTERNS (".env." ++ t) = ⟨true, some ".env files"⟩) ∧
    (∀ t : String, protLookup PROTECTED_PATTERNS (".git/" ++ t) =
      ⟨true, some ".git directory"⟩) := by
  refine ⟨by decide, by decide, by decide, by decide, by decide, by decide,
    ?_, ?_⟩
  · intro t ht he hdot
    have hdata : (".env." ++ t).data = '.' :: 'e' :: 'n' :: 'v' :: '.' :: t.data := by
      rw [String.data_append]; rfl
    have htne : ¬ t.data = [] := data_ne_nil_of_ne_empty t ht
    have henv : protEnvTest (".env." ++ t) = true := by
      simp only [protEnvTest, decide_eq_true_eq]
      refine Or.inr ⟨?_, ?_, ?_, ?_⟩
      · unfold strStartsWith
        rw [List.isPrefixOf_iff_prefix, hdata]
        exact ⟨t.data, rfl⟩
      · rw [hdata]
        simp only [List.length_cons]
        have : 1 ≤ t.data.length := by
          cases hc : t.data with
          | nil => exact absurd hc htne
          | cons a r => simp
        omega
      · rw [hdata]
        cases hc : t.data with
        | nil => exact absurd hc htne
        | cons a r =>
          have : ('.' :: 'e' :: 'n' :: 'v' :: '.' :: a :: r).getD 5 ' ' = a := rfl
          rw [this]
          have ha : t.data.headD ' ' = a := by rw [hc]; rfl
          rw [ha] at hdot
          exact hdot
      · rw [hdata]
        intro hcon
        apply he
        have : ('.' :: 'e' :: 'n' :: 'v' :: '.' :: t.data).drop 5 = t.data := rfl
        rw [this] at hcon
        have ht2 : mkStr t.data = t := rfl
        rw [ht2] at hcon
        exact hcon
    simp only [PROTECTED_PATTERNS, protLookup, henv, if_true]
  · intro t
    have hdata : (".git/" ++ t).data = '.' :: 'g' :: 'i' :: 't' :: '/' :: t.data := by
      rw [String.data_append]; rfl
    have henv : protEnvTest (".git/" ++ t) = false := by
      simp only [protEnvTest, decide_eq_false_iff_not]
      intro hcon
      rcases hcon with hcon | ⟨hcon, _⟩
      · have := congrArg String.data hcon
        rw [hdata] at this
        simp at this
      · unfold strStartsWith at hcon
        rw [List.isPrefixOf_iff_prefix, hdata] at hcon
        have : ".env.".data = '.' :: 'e' :: 'n' :: 'v' :: '.' :: [] := rfl
        rw [this] at hcon
        obtain ⟨tt, htt⟩ := hcon
        simp at htt
    have hgit : protGitTest (".git/" ++ t) = true := by
      simp only [protGitTest, decide_eq_true_eq]
      refine Or.inr ?_
      unfold strStartsWith
      rw [List.isPrefixOf_iff_prefix, hdata]
      exact ⟨t.data, rfl⟩
    simp only [PROTECTED_PATTERNS, protLookup, henv, hgit]
    rfl

/-- Witness for C4: the `.env.*` rule applied to the concrete suffix
`production2` and the `.git/` rule applied to `hooks/x`. -/
theorem C4_witness :
    protLookup PROTECTED_PATTERNS ".env.production2" = ⟨true, some ".env files"⟩ ∧
    protLookup PROTECTED_PATTERNS ".git/hooks/x" = ⟨true, some ".git directory"⟩ :=
  ⟨C4_protected_path_rules.2.2.2.2.2.2.1 "production2" (by decide) (by decide)
      (by decide),
    C4_protected_path_rules.2.2.2.2.2.2.2 "hooks/x"⟩

/-- C9: both protected patterns are anchored at the start of the relative
path: whenever `protLookup` reports protected, the relative path begins with
`.env`, or is `.git`, or begins with `.git/`; consequently a path whose
relative form has a directory component before the protected name (such as
`sub/.env` or `a/b/.git/config`) is not protected. -/
theorem C9_protected_patterns_anchored :
    (∀ rel : String, (protLookup PROTECTED_PATTERNS rel).prot = true →
      strStartsWith rel ".env" = true ∨ rel = ".git" ∨
        strStartsWith rel ".git/" = true) ∧
    isProtectedPath env0 "/wd" "/wd/sub/.env" = ⟨false, none⟩ ∧
    isProtectedPath env0 "/wd" "/wd/a/b/.git/config" = ⟨false, none⟩ := by
  refine ⟨?_, by decide, by decide⟩
  intro rel h
  by_cases he : protEnvTest rel = true
  · left
    have he2 := he
    simp only [protEnvTest, decide_eq_true_eq] at he2
    rcases he2 with he2 | ⟨he2, _⟩
    · subst he2
      decide
    · unfold strStartsWith at he2 ⊢
      rw [List.isPrefixOf_iff_prefix] at he2 ⊢
      refine List.IsPrefix.trans ?_ he2
      exact ⟨['.'], rfl⟩
  · by_cases hg : protGitTest rel = true
    · right
      have hg2 := hg
      simp only [protGitTest, decide_eq_true_eq] at hg2
      rcases hg2 with hg2 | hg2
      · exact Or.inl hg2
      · exact Or.inr hg2
    · exfalso
      simp only [PROTECTED_PATTERNS, protLookup, he, hg] at h
      simp at h

/-- Witness for C9: the anchoring fact applied to the concrete protected
relative path `.env.local`. -/
theorem C9_witness :
    strStartsWith ".env.local" ".env" = true ∨ (".env.local" : String) = ".git" ∨
      strStartsWith ".env.local" ".git/" = true :=
  C9_protected_patterns_anchored.1 ".env.local" (by decide)

/-- C5 counterexample: `validatePath("/wd/.env")` (a path inside the working
directory that is protected) returns a blocked verdict whose reason names
the matched protection rule but does not name the path — refuting "otherwise
a blocked verdict naming the path". -/
theorem C5_counterexample :
    validatePath env0 "/wd" "/wd/.env" =
      ⟨true, some "File operation targets protected path: .env files"⟩ ∧
    strContainsSub "File operation targets protected path: .env files"
      "/wd/.env" = false :=
  ⟨by decide, by decide⟩

/-- C5 (amended): `validatePath` returns an unblocked verdict for the empty
string; for every non-empty path it is unblocked iff the path is
safe-for-write (device/temp) or within the working directory or a platform
path, and not protected; when blocked by the zone check the reason names the
path, and when blocked by the protection check the verdict is the protected
verdict (naming the matched rule); in particular
`validatePath("/etc/passwd")` is blocked. -/
theorem C5_validatePath_rules :
    (∀ (env : Env) (wd : String), validatePath env wd "" = ⟨false, none⟩) ∧
    (∀ (env : Env) (wd p : String), ¬ p = "" →
      ((validatePath env wd p).blocked = false ↔
        ((isSafeForWrite env wd p = true ∨ isWithinWorkingDir env wd p = true ∨
            isPlatformPath env wd p = true) ∧
          (checkProtectedPath env wd p "File operation" none).blocked = false))) ∧
    (∀ (env : Env) (wd p : String), ¬ p = "" →
      ¬ isSafeForWrite env wd p = true → ¬ isWithinWorkingDir env wd p = true →
      ¬ isPlatformPath env wd p = true →
      validatePath env wd p =
        ⟨true, some ("File operation targets path outside working directory: "
          ++ p)⟩) ∧
    (∀ (env : Env) (wd p : String), ¬ p = "" →
      (isSafeForWrite env wd p = true ∨ isWithinWorkingDir env wd p = true ∨
        isPlatformPath env wd p = true) →
      validatePath env wd p = checkProtectedPath env wd p "File operation" none) ∧
    (validatePath env0 "/wd" "/etc/passwd").blocked = true := by
  have hbody : ∀ (env : Env) (wd p : String), ¬ p = "" →
      validatePath env wd p =
        if ¬ isSafeForWrite env wd p = true ∧ ¬ isWithinWorkingDir env wd p = true ∧
            ¬ isPlatformPath env wd p = true then
          ⟨true, some ("File operation targets path outside working directory: "
            ++ p)⟩
        else checkProtectedPath env wd p "File operation" none := by
    intro env wd p hp
    unfold validatePath
    rw [if_neg hp]
  refine ⟨fun env wd => rfl, ?_, ?_, ?_, by decide⟩
  · intro env wd p hp
    rw [hbody env wd p hp]
    by_cases hz : ¬ isSafeForWrite env wd p = true ∧
        ¬ isWithinWorkingDir env wd p = true ∧ ¬ isPlatformPath env wd p = true
    · rw [if_pos hz]
      constructor
      · intro h
        simp at h
      · rintro ⟨hzone, _⟩
        rcases hzone with h | h | h
        · exact absurd h hz.1
        · exact absurd h hz.2.1
        · exact absurd h hz.2.2
    · rw [if_neg hz]
      constructor
      · intro h
        refine ⟨?_, h⟩
        by_contra hcon
        push_neg at hcon
        exact hz ⟨hcon.1, hcon.2.1, hcon.2.2⟩
      · exact fun h => h.2
  · intro env wd p hp h1 h2 h3
    rw [hbody env wd p hp, if_pos ⟨h1, h2, h3⟩]
  · intro env wd p hp hzone
    rw [hbody env wd p hp, if_neg ?_]
    rintro ⟨h1, h2, h3⟩
    rcases hzone with h | h | h
    · exact h1 h
    · exact h2 h
    · exact h3 h

/-- Witness for C5: the zone-block case applied to the concrete outside path
`/etc/hosts2`, and the unblocked-iff applied to the inside path `ok.txt`. -/
theorem C5_witness :
    validatePath env0 "/wd" "/etc/hosts2" =
      ⟨true, some "File operation targets path outside working directory: /etc/hosts2"⟩ ∧
    (validatePath env0 "/wd" "ok.txt").blocked = false :=
  ⟨C5_validatePath_rules.2.2.1 env0 "/wd" "/etc/hosts2" (by decide) (by decide)
      (by decide) (by decide),
    (C5_validatePath_rules.2.1 env0 "/wd" "ok.txt" (by decide)).mpr
      ⟨Or.inr (Or.inl (by decide)), by decide⟩⟩

/-- C7: for `cp`, `analyze` dispatches to `checkCpCommand`, which validates
only the last extracted path (the destination): the source list is
irrelevant, the destination must be allowed with device paths permitted and
not protected; hence `cp /etc/hosts ./local` is allowed and
`cp ./secret ~/leaked` is blocked. -/
theorem C7_cp_checks_only_destination :
    (∀ (env : Env) (wd : String) (srcs : List String) (d : String)
        (b : Option String),
      checkCpCommand env wd (srcs ++ [d]) b = checkCpCommand env wd [d] b) ∧
    (∀ (env : Env) (wd cmd : String) (b : Option String),
      getBaseCommand cmd = "cp" →
      checkDangerousCommand env wd cmd b =
        checkCpCommand env wd (extractPaths cmd) b) ∧
    (∀ (env : Env) (wd d : String) (b : Option String),
      (checkCpCommand env wd [d] b).blocked = false ↔
        (isPathAllowed env wd d true b = true ∧
          (checkProtectedPath env wd d "Command \"cp\"" b).blocked = false)) ∧
    analyze env0 "/wd" "cp /etc/hosts ./local" = ⟨false, none⟩ ∧
    (analyze env0 "/wd" "cp ./secret ~/leaked").blocked = true := by
  refine ⟨?_, ?_, ?_, by decide, by decide⟩
  · intro env wd srcs d b
    unfold checkCpCommand
    rw [List.getLast?_concat]
    rfl
  · intro env wd cmd b h
    unfold checkDangerousCommand
    rw [h]
    rfl
  · intro env wd d b
    by_cases h : isPathAllowed env wd d true b = true
    · have heq : checkCpCommand env wd [d] b =
          checkProtectedPath env wd d "Command \"cp\"" b := by
        unfold checkCpCommand
        simp [h]
      rw [heq]
      simp [h]
    · have heq : checkCpCommand env wd [d] b =
          ⟨true, some ("Command \"cp\" targets path outside working directory: "
            ++ resolvePath env wd d b)⟩ := by
        unfold checkCpCommand
        simp [h]
      rw [heq]
      simp [h]

/-- Witness for C7: the dispatch fact applied to the concrete command
`cp a b` (with hypothesis discharged by evaluation), alongside a concrete
instance of the source-irrelevance equation. -/
theorem C7_witness :
    checkDangerousCommand env0 "/wd" "cp a b" none =
      checkCpCommand env0 "/wd" (extractPaths "cp a b") none ∧
    checkCpCommand env0 "/wd" (["/etc/hosts"] ++ ["./x"]) none =
      checkCpCommand env0 "/wd" ["./x"] none :=
  ⟨C7_cp_checks_only_destination.2.1 env0 "/wd" "cp a b" none (by decide),
    C7_cp_checks_only_destination.1 env0 "/wd" ["/etc/hosts"] "./x" none⟩

/-- C2: in the `analyze` loop a `cd` link is never blocked — it only updates
the tracked current directory via `cdAdvance` (quoted target preferred, else
the first non-flag token, else the home directory for bare `cd`; expanded
and resolved against the tracked directory) — and subsequent dangerous
commands resolve relative paths against the tracked directory; in particular
`analyze("cd ~/Downloads && rm -rf folder")` is blocked with the target
resolved under the home directory. -/
theorem C2_cd_tracking :
    (∀ (env : Env) (wd : String) (hasCd : Bool) (link : String)
        (rest : List String) (cur : String),
      isCdCommand (jsTrim link) = true →
      analyzeLoop env wd hasCd (link :: rest) cur =
        analyzeLoop env wd hasCd rest (cdAdvance env wd cur (jsTrim link))) ∧
    extractCdTarget env0 "cd \"My Dir\"" = some "My Dir" ∧
    extractCdTarget env0 "cd -P dir" = some "dir" ∧
    extractCdTarget env0 "cd" = some "/home/u" ∧
    cdAdvance env0 "/wd" "/wd" "cd ~/Downloads" = "/home/u/Downloads" ∧
    analyze env0 "/wd" "cd ~/Downloads && rm -rf folder" =
      ⟨true, some "Command \"rm\" targets path outside working directory: /home/u/Downloads/folder"⟩ := by
  refine ⟨?_, by decide, by decide, by decide, by decide, by decide⟩
  intro env wd hasCd link rest cur h
  have hne : ¬ jsTrim link = "" := by
    intro hcon
    rw [hcon] at h
    exact absurd h (by decide)
  rw [analyzeLoop]
  simp only [if_neg hne, h, if_true]

/-- Witness for C2: the loop fact applied to the concrete chain link
`cd sub` in front of an `rm` link, with the hypothesis discharged by
evaluation. -/
theorem C2_witness :
    analyzeLoop env0 "/wd" true ["cd sub", "rm -rf x"] "/wd" =
      analyzeLoop env0 "/wd" true ["rm -rf x"]
        (cdAdvance env0 "/wd" "/wd" (jsTrim "cd sub")) :=
  C2_cd_tracking.1 env0 "/wd" true "cd sub" ["rm -rf x"] "/wd" (by decide)

/-! ## Lemmas about the redirect scanner (for claim C10) -/

theorem redirGtSkip_length (r : List Char) : (redirGtSkip r).length ≤ r.length := by
  unfold redirGtSkip
  split
  · simp
  · exact Nat.le_refl _

theorem redirQuotedAlt_cont_length (q : Char) (r2 r3 cap cont : List Char)
    (hr : r3.length < r2.length)
    (h : redirQuotedAlt q r2 r3 = some (cap, cont)) : cont.length ≤ r2.length := by
  simp only [redirQuotedAlt] at h
  split at h
  · have := (Option.some.injEq _ _).mp h
    have hcont : cont = r3.drop ((r3.takeWhile (· ≠ q)).length + 1) := by
      have := congrArg Prod.snd this.symm
      simpa using this
    rw [hcont, List.length_drop]
    omega
  · have := (Option.some.injEq _ _).mp h
    have hcont : cont = r2.drop (r2.takeWhile redirClassOk).length := by
      have := congrArg Prod.snd this.symm
      simpa using this
    rw [hcont, List.length_drop]
    omega

theorem redirAlts_cont_length (r2 cap cont : List Char)
    (h : redirAlts r2 = some (cap, cont)) : cont.length ≤ r2.length := by
  unfold redirAlts at h
  split at h
  case _ r3 => exact redirQuotedAlt_cont_length '"' _ r3 cap cont (by simp) h
  case _ r3 => exact redirQuotedAlt_cont_length '\'' _ r3 cap cont (by simp) h
  case _ =>
    simp only [] at h
    split at h
    · have := (Option.some.injEq _ _).mp h
      have hcont : cont = r2.drop (r2.takeWhile redirClassOk).length := by
        have := congrArg Prod.snd this.symm
        simpa using this
      rw [hcont, List.length_drop]
      omega
    · exact absurd h (by simp)

theorem redirAttempt_cont_length (r cap cont : List Char)
    (h : redirAttempt r = some (cap, cont)) : cont.length ≤ r.length := by
  unfold redirAttempt at h
  have h1 := redirAlts_cont_length _ cap cont h
  have h2 : ((redirGtSkip r).dropWhile jsWs).length ≤ (redirGtSkip r).length :=
    (List.dropWhile_sublist _).length_le
  have h3 := redirGtSkip_length r
  omega

theorem redirectScanF_fuel : ∀ (n m : Nat) (l : List Char),
    l.length ≤ n → l.length ≤ m → redirectScanF n l = redirectScanF m l := by
  intro n
  induction n with
  | zero =>
    intro m l hn _
    have h0 : l = [] := List.length_eq_zero.mp (Nat.le_zero.mp hn)
    subst h0
    cases m <;> rfl
  | succ n ih =>
    intro m l hn hm
    cases m with
    | zero =>
      have h0 : l = [] := List.length_eq_zero.mp (Nat.le_zero.mp hm)
      subst h0
      rfl
    | succ m' =>
      cases l with
      | nil => rfl
      | cons c r =>
        simp only [List.length_cons] at hn hm
        have hr : r.length ≤ n := by omega
        have hrm : r.length ≤ m' := by omega
        show redirectScanF (n + 1) (c :: r) = redirectScanF (m' + 1) (c :: r)
        unfold redirectScanF
        by_cases hc : c = '>'
        · simp only [if_pos hc]
          cases hA : redirAttempt r with
          | none =>
            simp only [hA]
            exact ih m' r hr hrm
          | some pr =>
            obtain ⟨cap, cont⟩ := pr
            simp only [hA]
            have hlen := redirAttempt_cont_length r cap cont hA
            rw [ih m' cont (by omega) (by omega)]
        · simp only [if_neg hc]
          exact ih m' r hr hrm

/-- Scanning a string whose leading characters contain no `>` yields the
matches of the remainder. -/
theorem redirectScanF_skip_front : ∀ (pre l : List Char),
    (∀ c ∈ pre, ¬ c = '>') →
    redirectScanF (pre.length + l.length + 1) (pre ++ l) =
      redirectScanF (l.length + 1) l := by
  intro pre
  induction pre with
  | nil => intro l _; simp
  | cons c pre' ih =>
    intro l h
    have hc : ¬ c = '>' := h c (List.mem_cons_self _ _)
    have hrest : ∀ d ∈ pre', ¬ d = '>' := fun d hd => h d (List.mem_cons_of_mem _ hd)
    show redirectScanF (pre'.length + 1 + l.length + 1) (c :: (pre' ++ l)) = _
    conv_lhs => rw [redirectScanF]
    simp only [if_neg hc]
    have : pre'.length + 1 + l.length = pre'.length + l.length + 1 := by omega
    rw [this]
    exact ih l hrest

/-- `redirectMatches` ignores a `>`-free prefix. -/
theorem redirectMatches_drop_front (pre : List Char) (C : String)
    (h : ∀ c ∈ pre, ¬ c = '>') :
    redirectMatches (mkStr (pre ++ C.data)) = redirectMatches C := by
  unfold redirectMatches
  have hdata : (mkStr (pre ++ C.data)).data = pre ++ C.data := rfl
  rw [hdata]
  have hlen : (pre ++ C.data).length + 1 = pre.length + C.data.length + 1 := by
    simp
  rw [hlen, redirectScanF_skip_front pre C.data h]

/-- C10 counterexample: for the directory string `>/etc/pw` (which itself
contains a redirect operator) and the command `echo hi > out.txt` (which
contains a redirect), the redirect verdict of `cd D && C` differs from the
redirect verdict of `C` — refuting the equality for *every* directory D. -/
theorem C10_counterexample :
    ¬ redirectMatches "echo hi > out.txt" = [] ∧
    ¬ checkRedirects env0 "/wd" ("cd " ++ ">/etc/pw" ++ " && " ++ "echo hi > out.txt") =
        checkRedirects env0 "/wd" "echo hi > out.txt" :=
  ⟨by decide, by decide⟩

/-- C10 (amended): the redirect check is evaluated on the raw command string
against the originally bound working directory, so for every directory
string `D` that contains no `>` the redirect verdict of `cd D && C` equals
the redirect verdict of `C`; and whenever the redirect check blocks (and the
git check, which runs first, does not), `analyze` returns exactly the
redirect verdict — a preceding `cd` never affects redirect targets. -/
theorem C10_redirect_check_uses_original_wd :
    (∀ (env : Env) (wd D C : String), strContainsChar D '>' = false →
      checkRedirects env wd ("cd " ++ D ++ " && " ++ C) = checkRedirects env wd C) ∧
    (∀ (env : Env) (wd s : String),
      (checkDangerousGitCommands s).blocked = false →
      (checkRedirects env wd s).blocked = true →
      analyze env wd s = checkRedirects env wd s) := by
  constructor
  · intro env wd D C h
    unfold checkRedirects
    congr 1
    have hpre : ∀ c ∈ ("cd " ++ D ++ " && ").data, ¬ c = '>' := by
      intro c hc
      have hdata : ("cd " ++ D ++ " && ").data =
          "cd ".data ++ D.data ++ " && ".data := by
        rw [String.data_append, String.data_append]
      rw [hdata] at hc
      rcases List.mem_append.mp hc with hc | hc
      · rcases List.mem_append.mp hc with hc | hc
        · have hcl : c ∈ ['c', 'd', ' '] := hc
          simp only [List.mem_cons, List.not_mem_nil, or_false] at hcl
          rcases hcl with rfl | rfl | rfl <;> decide
        · intro hcon
          subst hcon
          unfold strContainsChar at h
          rw [List.contains, List.elem_eq_true_of_mem hc] at h
          simp at h
      · have hcl : c ∈ [' ', '&', '&', ' '] := hc
        simp only [List.mem_cons, List.not_mem_nil, or_false] at hcl
        rcases hcl with rfl | rfl | rfl | rfl <;> decide
    have key : ("cd " ++ D ++ " && " ++ C) =
        mkStr (("cd " ++ D ++ " && ").data ++ C.data) := rfl
    rw [key, redirectMatches_drop_front _ C hpre]
  · intro env wd s h1 h2
    unfold analyze
    simp [h1, h2]

/-- Witness for C10: the amended equality applied to the `>`-free directory
`sub` with a redirect command, and the verdict fact applied to a concrete
blocked redirect. -/
theorem C10_witness :
    checkRedirects env0 "/wd" ("cd " ++ "sub" ++ " && " ++ "echo hi > /etc/pw") =
      checkRedirects env0 "/wd" "echo hi > /etc/pw" ∧
    analyze env0 "/wd" "echo hi > /etc/pw" =
      checkRedirects env0 "/wd" "echo hi > /etc/pw" :=
  ⟨C10_redirect_check_uses_original_wd.1 env0 "/wd" "sub" "echo hi > /etc/pw"
      (by decide),
    C10_redirect_check_uses_original_wd.2 env0 "/wd" "echo hi > /etc/pw"
      (by decide) (by decide)⟩

/-! ## Lemmas for claim C8 (chain-operator equivalence) -/

theorem searchWBAux_true_iff (core : List Char → Bool) (prev : Option Char)
    (l : List Char) :
    searchWBAux core prev l = true ↔
      ((nonWordOpt prev = true ∧ core l = true) ∨
        (match l with
          | [] => False
          | c :: r => searchWBAux core (some c) r = true)) := by
  cases l <;> simp [searchWBAux]

theorem searchWBAux_prev_congr (core : List Char → Bool) :
    ∀ (l : List Char) (p q : Option Char),
      nonWordOpt p = nonWordOpt q →
      searchWBAux core p l = searchWBAux core q l := by
  intro l
  cases l with
  | nil =>
    intro p q h
    simp [searchWBAux, h]
  | cons c r =>
    intro p q h
    simp [searchWBAux, h]

theorem searchWBAux_append (core : List Char → Bool) :
    ∀ (pre l : List Char) (prev : Option Char),
      searchWBAux core
        (match pre.getLast? with
          | some c => some c
          | none => prev) l = true →
      searchWBAux core prev (pre ++ l) = true
  | [], l, prev, h => h
  | c :: pre', l, prev, h => by
    rw [searchWBAux_true_iff]
    refine Or.inr ?_
    show searchWBAux core (some c) (pre' ++ l) = true
    apply searchWBAux_append core pre' l (some c)
    cases hd : pre'.getLast? with
    | none =>
      have hpre : pre' = [] := List.getLast?_eq_none_iff.mp hd
      subst hpre
      exact h
    | some d =>
      have h2 : (c :: pre').getLast? = some d := by
        cases pre' with
        | nil => simp at hd
        | cons a b =>
          rw [List.getLast?_cons_cons]
          exact hd
      rw [h2] at h
      exact h

/-- Searching for a `\b`-anchored pattern after appending a prefix that ends
in a non-word character preserves a match. -/
theorem searchWB_append (core : List Char → Bool) (pre : List Char) (s : String)
    (hend : ∀ c, pre.getLast? = some c → ¬ wordChar c = true)
    (h : searchWB core s = true) :
    searchWBAux core none (pre ++ s.data) = true := by
  apply searchWBAux_append core pre s.data none
  cases hp : pre.getLast? with
  | none => exact h
  | some c =>
    rw [searchWBAux_prev_congr core s.data (some c) none ?_]
    · exact h
    · have := hend c hp
      simp [nonWordOpt, this]

theorem firstRuleMatch_none_iff (rules : List ((String → Bool) × String))
    (s : String) :
    firstRuleMatch rules s = none ↔ ∀ r ∈ rules, r.1 s = false := by
  induction rules with
  | nil => simp [firstRuleMatch]
  | cons hd tl ih =>
    obtain ⟨test, name⟩ := hd
    by_cases h : test s
    · simp [firstRuleMatch, h]
    · simp only [firstRuleMatch]
      rw [if_neg h]
      rw [ih]
      constructor
      · intro hall r hr
        rcases List.mem_cons.mp hr with rfl | hr
        · simpa using h
        · exact hall r hr
      · intro hall r hr
        exact hall r (List.mem_cons_of_mem _ hr)

/-- A quote-free prefix does not change the quoted matches. -/
theorem quotedMatchesGo_skip : ∀ (pre l : List Char),
    (∀ c ∈ pre, isQuote c = false) →
    quotedMatchesGo none (pre ++ l) = quotedMatchesGo none l
  | [], l, _ => rfl
  | c :: pre', l, h => by
    have hq : isQuote c = false := h c (List.mem_cons_self _ _)
    show quotedMatchesGo none (c :: (pre' ++ l)) = _
    rw [quotedMatchesGo]
    simp only [hq, Bool.false_eq_true, if_false]
    exact quotedMatchesGo_skip pre' l fun d hd => h d (List.mem_cons_of_mem _ hd)

/-- A quote-free prefix passes through quote stripping unchanged. -/
theorem stripQuotedGo_skip : ∀ (pre l : List Char),
    (∀ c ∈ pre, isQuote c = false) →
    stripQuotedGo none (pre ++ l) = pre ++ stripQuotedGo none l
  | [], l, _ => rfl
  | c :: pre', l, h => by
    have hq : isQuote c = false := h c (List.mem_cons_self _ _)
    show stripQuotedGo none (c :: (pre' ++ l)) = _
    rw [stripQuotedGo]
    simp only [hq, Bool.false_eq_true, if_false]
    rw [stripQuotedGo_skip pre' l fun d hd => h d (List.mem_cons_of_mem _ hd)]
    rfl

theorem trimList_cons_ws (c : Char) (l : List Char) (h : jsWs c = true) :
    trimList (c :: l) = trimList l := by
  unfold trimList
  rw [List.dropWhile_cons_of_pos h]

theorem finishSeg_space (cur : List Char) :
    finishSeg (cur ++ [' ']) = finishSeg cur := by
  unfold finishSeg
  have : trimList ((cur ++ [' ']).reverse) = trimList cur.reverse := by
    rw [List.reverse_append]
    show trimList (' ' :: cur.reverse) = _
    exact trimList_cons_ws ' ' cur.reverse (by decide)
  rw [this]

/-- A single space at the bottom of the accumulated (reversed) segment is
invisible to the splitter: every eventual segment push trims it away. -/
theorem splitCmdsAux_space : ∀ (l : List Char) (sq dq : Bool) (cur : List Char),
    splitCmdsAux sq dq (cur ++ [' ']) l = splitCmdsAux sq dq cur l
  | [], sq, dq, cur => finishSeg_space cur
  | [c], sq, dq, cur => by
    unfold splitCmdsAux
    split_ifs
    all_goals
      first
      | exact finishSeg_space cur
      | · rw [show (c :: (cur ++ [' '])) = (c :: cur) ++ [' '] from rfl]
          exact finishSeg_space (c :: cur)
      | · rw [show ('\\' :: (cur ++ [' '])) = ('\\' :: cur) ++ [' '] from rfl]
          exact finishSeg_space ('\\' :: cur)
      | · rw [show ('\'' :: (cur ++ [' '])) = ('\'' :: cur) ++ [' '] from rfl]
          exact finishSeg_space ('\'' :: cur)
      | · rw [show ('"' :: (cur ++ [' '])) = ('"' :: cur) ++ [' '] from rfl]
          exact finishSeg_space ('"' :: cur)
  | c :: c2 :: r, sq, dq, cur => by
    unfold splitCmdsAux
    split_ifs
    · rw [show (c2 :: '\\' :: (cur ++ [' '])) = (c2 :: '\\' :: cur) ++ [' '] from rfl]
      exact splitCmdsAux_space r sq dq (c2 :: '\\' :: cur)
    · rw [show ('\'' :: (cur ++ [' '])) = ('\'' :: cur) ++ [' '] from rfl]
      exact splitCmdsAux_space (c2 :: r) (¬ sq) dq ('\'' :: cur)
    · rw [show ('"' :: (cur ++ [' '])) = ('"' :: cur) ++ [' '] from rfl]
      exact splitCmdsAux_space (c2 :: r) sq (¬ dq) ('"' :: cur)
    · rw [finishSeg_space cur]
    · rw [finishSeg_space cur]
    · rw [show (c :: (cur ++ [' '])) = (c :: cur) ++ [' '] from rfl]
      exact splitCmdsAux_space (c2 :: r) sq dq (c :: cur)

theorem checkProtectedPath_blocked (env : Env) (wd path ctx : String)
    (base : Option String) :
    (checkProtectedPath env wd path ctx base).blocked =
      (isProtectedPath env wd (resolvePath env wd path base)).prot := by
  unfold checkProtectedPath
  cases h : (isProtectedPath env wd (resolvePath env wd path base)).prot <;>
    simp [h]

/-- A path argument that blocks the compound-pattern path loop: it resolves
into no permitted zone, or it is protected. -/
def pathBad (env : Env) (wd : String) (base : Option String) (path : String) :
    Prop :=
  (¬ isWithinWorkingDir env wd (resolvePath env wd path base) = true ∧
    ¬ isTempPath env wd (resolvePath env wd path base) = true ∧
    ¬ isPlatformPath env wd (resolvePath env wd path base) = true) ∨
  (isProtectedPath env wd (resolvePath env wd path base)).prot = true

theorem dangerousPathsLoop_blocked_iff (env : Env) (wd name : String)
    (base : Option String) : ∀ paths : List String,
    (dangerousPathsLoop env wd name base paths).blocked = true ↔
      ∃ p ∈ paths, pathBad env wd base p
  | [] => by simp [dangerousPathsLoop]
  | path :: rest => by
    rw [dangerousPathsLoop]
    by_cases hz : (¬ isWithinWorkingDir env wd (resolvePath env wd path base) = true ∧
        ¬ isTempPath env wd (resolvePath env wd path base) = true ∧
        ¬ isPlatformPath env wd (resolvePath env wd path base) = true)
    · rw [if_pos hz]
      constructor
      · intro _
        exact ⟨path, List.mem_cons_self _ _, Or.inl hz⟩
      · intro _
        rfl
    · rw [if_neg hz]
      show (if (checkProtectedPath env wd path
            ("Command \"" ++ name ++ "\"") base).blocked = true
          then checkProtectedPath env wd path ("Command \"" ++ name ++ "\"") base
          else dangerousPathsLoop env wd name base rest).blocked = true ↔ _
      cases hp : (checkProtectedPath env wd path
          ("Command \"" ++ name ++ "\"") base).blocked with
      | true =>
        rw [if_pos rfl, hp]
        constructor
        · intro _
          refine ⟨path, List.mem_cons_self _ _, Or.inr ?_⟩
          rw [← checkProtectedPath_blocked env wd path
            ("Command \"" ++ name ++ "\"") base]
          exact hp
        · intro _
          rfl
      | false =>
        rw [if_neg (by simp)]
        rw [dangerousPathsLoop_blocked_iff env wd name base rest]
        constructor
        · rintro ⟨p, hpmem, hbad⟩
          exact ⟨p, List.mem_cons_of_mem _ hpmem, hbad⟩
        · rintro ⟨p, hpmem, hbad⟩
          rcases List.mem_cons.mp hpmem with rfl | hpmem
          · exfalso
            rcases hbad with hbad | hbad
            · exact hz hbad
            · rw [← checkProtectedPath_blocked env wd p
                ("Command \"" ++ name ++ "\"") base, hp] at hbad
              simp at hbad
          · exact ⟨p, hpmem, hbad⟩

theorem checkDangerousPatternsGo_blocked_iff (env : Env) (wd s : String)
    (base : Option String) : ∀ rules : List ((String → Bool) × String),
    (checkDangerousPatternsGo env wd s base rules).blocked = true ↔
      ((∃ r ∈ rules, r.1 s = true) ∧
        ∃ p ∈ extractPaths s, pathBad env wd base p)
  | [] => by simp [checkDangerousPatternsGo]
  | (test, name) :: rest => by
    rw [checkDangerousPatternsGo]
    by_cases ht : test s = true
    · rw [if_neg (by simp [ht])]
      show (if (dangerousPathsLoop env wd name base (extractPaths s)).blocked = true
          then dangerousPathsLoop env wd name base (extractPaths s)
          else checkDangerousPatternsGo env wd s base rest).blocked = true ↔ _
      cases hl : (dangerousPathsLoop env wd name base (extractPaths s)).blocked with
      | true =>
        rw [if_pos rfl, hl]
        constructor
        · intro _
          exact ⟨⟨(test, name), List.mem_cons_self _ _, ht⟩,
            (dangerousPathsLoop_blocked_iff env wd name base _).mp hl⟩
        · intro _
          rfl
      | false =>
        rw [if_neg (by simp)]
        rw [checkDangerousPatternsGo_blocked_iff env wd s base rest]
        have hnobad : ¬ ∃ p ∈ extractPaths s, pathBad env wd base p := by
          intro hcon
          have := (dangerousPathsLoop_blocked_iff env wd name base
            (extractPaths s)).mpr hcon
          rw [hl] at this
          simp at this
        constructor
        · rintro ⟨_, hbad⟩
          exact absurd hbad hnobad
        · rintro ⟨_, hbad⟩
          exact absurd hbad hnobad
    · rw [if_pos (by simpa using ht)]
      rw [checkDangerousPatternsGo_blocked_iff env wd s base rest]
      constructor
      · rintro ⟨⟨r, hr, hrt⟩, hbad⟩
        exact ⟨⟨r, List.mem_cons_of_mem _ hr, hrt⟩, hbad⟩
      · rintro ⟨⟨r, hr, hrt⟩, hbad⟩
        rcases List.mem_cons.mp hr with rfl | hr
        · exact absurd hrt ht
        · exact ⟨⟨r, hr, hrt⟩, hbad⟩

theorem checkGit_blocked_iff (s : String) :
    (checkDangerousGitCommands s).blocked = true ↔
      ¬ firstRuleMatch DANGEROUS_GIT_PATTERNS s = none := by
  unfold checkDangerousGitCommands
  cases h : firstRuleMatch DANGEROUS_GIT_PATTERNS s <;> simp [h]

/-- Appending a prefix ending in a non-word character preserves a
dangerous-git match. -/
theorem checkGit_mono (pre : List Char) (s : String)
    (hend : ∀ c, pre.getLast? = some c → ¬ wordChar c = true)
    (h : (checkDangerousGitCommands s).blocked = true) :
    (checkDangerousGitCommands (mkStr (pre ++ s.data))).blocked = true := by
  rw [checkGit_blocked_iff] at h ⊢
  rw [firstRuleMatch_none_iff] at h ⊢
  intro hall
  apply h
  intro r hr
  by_contra hcon
  have hrt : r.1 s = true := by
    cases hb : r.1 s
    · exact absurd hb hcon
    · rfl
  obtain ⟨core, hcore⟩ : ∃ core, r.1 = searchWB core := by
    fin_cases hr <;> exact ⟨_, rfl⟩
  have hw : r.1 (mkStr (pre ++ s.data)) = true := by
    rw [hcore]
    exact searchWB_append core pre s hend (by rw [hcore] at hrt; exact hrt)
  rw [hall r hr] at hw
  simp at hw

theorem jsSplitWsGo_true_eq_false (X : List Char) :
    jsSplitWsGo true [] X = jsSplitWsGo false [] X ∨
    jsSplitWsGo true [] X = [] :: jsSplitWsGo false [] X := by
  cases X with
  | nil => left; rfl
  | cons c r =>
    by_cases hw : jsWs c = true
    · right
      show jsSplitWsGo true [] (c :: r) = [] :: jsSplitWsGo false [] (c :: r)
      rw [jsSplitWsGo, jsSplitWsGo]
      simp [hw]
    · left
      show jsSplitWsGo true [] (c :: r) = jsSplitWsGo false [] (c :: r)
      rw [jsSplitWsGo, jsSplitWsGo]
      simp [hw]

/-- Monotonicity of `extractPaths` under a quote-free, whitespace-terminated
prefix: every path extracted from `D` is also extracted from `pre ++ D`.
The prefix is described by its token decomposition `preTok` (hypothesis
`hsplit`) whose filtered form is nonempty (hypothesis `hne`). -/
theorem extractPaths_mono (pre : String) (preTok : List (List Char))
    (hq : ∀ c ∈ pre.data, isQuote c = false)
    (hsplit : ∀ X, jsSplitWsGo true [] (pre.data ++ X) =
      preTok ++ jsSplitWsGo false [] X)
    (hne : ¬ ((preTok.map mkStr).filter fun t => ¬ strStartsWith t "-") = [])
    (D p : String) (hp : p ∈ extractPaths D) : p ∈ extractPaths (pre ++ D) := by
  have hdata : (pre ++ D).data = pre.data ++ D.data := rfl
  unfold extractPaths at hp ⊢
  rw [hdata, quotedMatchesGo_skip pre.data D.data hq,
    stripQuotedGo_skip pre.data D.data hq]
  set X := stripQuotedGo none D.data with hX
  rcases List.mem_append.mp hp with hp | hp
  · exact List.mem_append_left _ hp
  · refine List.mem_append_right _ ?_
    -- the token part
    have htok : jsSplitWs (mkStr (pre.data ++ X)) =
        preTok.map mkStr ++ (jsSplitWsGo false [] X).map mkStr := by
      unfold jsSplitWs
      rw [show (mkStr (pre.data ++ X)).data = pre.data ++ X from rfl,
        hsplit X, List.map_append]
    rw [htok, List.filter_append]
    set F := ((jsSplitWsGo false [] X).map mkStr).filter
      fun t => ¬ strStartsWith t "-" with hF
    set preF := ((preTok.map mkStr).filter fun t => ¬ strStartsWith t "-") with hpreF
    have hdrop : (preF ++ F).drop 1 = preF.drop 1 ++ F := by
      apply List.drop_append_of_le_length
      cases hc : preF with
      | nil => exact absurd hc hne
      | cons a b => simp
    rw [hdrop, List.filterMap_append]
    refine List.mem_append_right _ ?_
    -- p comes from the D-token side; relate tokens of D to F
    have hDtok : p ∈ F.filterMap fun t =>
        let v := if strContainsChar t '=' then afterFirstEq t else t
        if v = "" then none else some v := by
      rcases jsSplitWsGo_true_eq_false X with hcase | hcase
      · -- tokens of D = F-form directly
        have : jsSplitWs (mkStr X) = (jsSplitWsGo false [] X).map mkStr := by
          unfold jsSplitWs
          rw [show (mkStr X).data = X from rfl, hcase]
        rw [hX] at this
        rw [this] at hp
        have hsub : ((((jsSplitWsGo false [] (stripQuotedGo none D.data)).map
            mkStr).filter fun t => ¬ strStartsWith t "-").drop 1).Sublist
            ((((jsSplitWsGo false [] (stripQuotedGo none D.data)).map
            mkStr).filter fun t => ¬ strStartsWith t "-")) :=
          List.drop_sublist _ _
        have := (hsub.filterMap _).subset hp
        rw [hF, hX]
        exact this
      · -- tokens of D have a leading empty token that the drop removes
        have : jsSplitWs (mkStr X) =
            "" :: (jsSplitWsGo false [] X).map mkStr := by
          unfold jsSplitWs
          rw [show (mkStr X).data = X from rfl, hcase]
          rfl
        rw [hX] at this
        rw [this] at hp
        have hemp : (¬ strStartsWith "" "-") = True := by simp [strStartsWith]
        rw [show ("" :: (jsSplitWsGo false [] (stripQuotedGo none D.data)).map
            mkStr).filter (fun t => ¬ strStartsWith t "-") =
            "" :: ((jsSplitWsGo false [] (stripQuotedGo none D.data)).map
            mkStr).filter (fun t => ¬ strStartsWith t "-") from by
          rw [List.filter_cons]
          simp [strStartsWith]] at hp
        rw [List.drop_one, List.tail_cons] at hp
        rw [hF, hX]
        exact hp
    exact hDtok

/-- `analyze` written as one `if`-cascade (the deferred compound-pattern
check fires only when no chain link is a `cd`). -/
theorem analyze_unfold (env : Env) (wd s : String) :
    analyze env wd s =
      if (checkDangerousGitCommands s).blocked = true then
        checkDangerousGitCommands s
      else if (checkRedirects env wd s).blocked = true then
        checkRedirects env wd s
      else if ¬ ((splitCommands s).any fun c => isCdCommand (jsTrim c)) = true ∧
          (checkDangerousPatterns env wd s none).blocked = true then
        checkDangerousPatterns env wd s none
      else
        analyzeLoop env wd ((splitCommands s).any fun c => isCdCommand (jsTrim c))
          (splitCommands s) wd := by
  by_cases hg : (checkDangerousGitCommands s).blocked = true
  · simp [analyze, hg]
  · by_cases hr : (checkRedirects env wd s).blocked = true
    · simp [analyze, hg, hr]
    · by_cases hc : ((splitCommands s).any fun c => isCdCommand (jsTrim c)) = true
      · simp [analyze, hg, hr, hc]
      · by_cases hp : (checkDangerousPatterns env wd s none).blocked = true
        · simp [analyze, hg, hr, hc, hp]
        · simp [analyze, hg, hr, hc, hp]

/-- A harmless first chain link (not a `cd`, no pattern match, not a
dangerous command) is skipped by the `analyze` loop without changing the
tracked directory. -/
theorem analyzeLoop_skip_harmless (env : Env) (wd : String) (hasCd : Bool)
    (rest : List String) (P0 : String)
    (h1 : ¬ jsTrim P0 = "")
    (h2 : isCdCommand (jsTrim P0) = false)
    (h3 : checkDangerousPatterns env wd (jsTrim P0) none = ⟨false, none⟩)
    (h4 : checkDangerousCommand env wd (jsTrim P0) none = ⟨false, none⟩) :
    analyzeLoop env wd hasCd (P0 :: rest) wd = analyzeLoop env wd hasCd rest wd := by
  rw [analyzeLoop]
  rw [if_neg h1]
  rw [if_neg (by simp [h2])]
  have hbase : (if ¬ (wd : String) = wd then some wd else none) = none := by simp
  rw [hbase]
  cases hasCd with
  | false =>
    simp only [Bool.false_eq_true, if_false]
    rw [h4]
    rfl
  | true =>
    simp only [if_true]
    rw [h3, h4]
    rfl

/-- A chain prefix ending in an operator and a space contributes exactly one
leading link to the chain split. -/
theorem splitCommands_prefix_gen (P P0 : String)
    (hnil : splitCmdsAux false false [] (P.data ++ ([] : List Char)) = [P0.data])
    (hcons : ∀ d rest, splitCmdsAux false false [] (P.data ++ (d :: rest)) =
      P0.data :: splitCmdsAux false false [' '] (d :: rest))
    (D : String) : splitCommands (P ++ D) = P0 :: splitCommands D := by
  unfold splitCommands
  have hdata : (P ++ D).data = P.data ++ D.data := rfl
  rw [hdata]
  cases hD : D.data with
  | nil =>
    rw [hnil]
    rfl
  | cons d rest =>
    rw [hcons d rest]
    have hsp : splitCmdsAux false false [' '] (d :: rest) =
        splitCmdsAux false false [] (d :: rest) :=
      splitCmdsAux_space (d :: rest) false false []
    rw [hsp]
    rfl

theorem lastSpace_nonword (l : List Char) (h : l.getLast? = some ' ') :
    ∀ c, l.getLast? = some c → ¬ wordChar c = true := by
  intro c hc
  rw [h] at hc
  injection hc with h2
  subst h2
  decide

/-- The heart of claim C8: prepending one harmless chain link (ending in a
chain operator and a space, with no quotes and no `>`) preserves a blocked
verdict of `analyze`. -/
theorem prefix_blocked_mono (env : Env) (wd : String) (P P0 : String)
    (preTok : List (List Char))
    (hnil : splitCmdsAux false false [] (P.data ++ ([] : List Char)) = [P0.data])
    (hcons : ∀ d rest, splitCmdsAux false false [] (P.data ++ (d :: rest)) =
      P0.data :: splitCmdsAux false false [' '] (d :: rest))
    (hend : ∀ c, P.data.getLast? = some c → ¬ wordChar c = true)
    (hq : ∀ c ∈ P.data, isQuote c = false)
    (hgt : ∀ c ∈ P.data, ¬ c = '>')
    (hsplitTok : ∀ X, jsSplitWsGo true [] (P.data ++ X) =
      preTok ++ jsSplitWsGo false [] X)
    (hne : ¬ ((preTok.map mkStr).filter fun t => ¬ strStartsWith t "-") = [])
    (hcd : isCdCommand (jsTrim P0) = false)
    (hP0a : ¬ jsTrim P0 = "")
    (hP0b : checkDangerousPatterns env wd (jsTrim P0) none = ⟨false, none⟩)
    (hP0c : checkDangerousCommand env wd (jsTrim P0) none = ⟨false, none⟩)
    (D : String) (hblocked : (analyze env wd D).blocked = true) :
    (analyze env wd (P ++ D)).blocked = true := by
  have hsplit : splitCommands (P ++ D) = P0 :: splitCommands D :=
    splitCommands_prefix_gen P P0 hnil hcons D
  have hgit : (checkDangerousGitCommands D).blocked = true →
      (checkDangerousGitCommands (P ++ D)).blocked = true := fun h =>
    checkGit_mono P.data D hend h
  have hred : checkRedirects env wd (P ++ D) = checkRedirects env wd D := by
    unfold checkRedirects
    congr 1
    exact redirectMatches_drop_front P.data D hgt
  have hpat : (checkDangerousPatterns env wd D none).blocked = true →
      (checkDangerousPatterns env wd (P ++ D) none).blocked = true := by
    intro h
    have h' := (checkDangerousPatternsGo_blocked_iff env wd D none
      DANGEROUS_PATTERNS).mp h
    apply (checkDangerousPatternsGo_blocked_iff env wd (P ++ D) none
      DANGEROUS_PATTERNS).mpr
    obtain ⟨⟨r, hr, hrt⟩, p, hpm, hbad⟩ := h'
    refine ⟨⟨r, hr, ?_⟩, p, extractPaths_mono P preTok hq hsplitTok hne D p hpm,
      hbad⟩
    obtain ⟨core, hcore⟩ : ∃ core, r.1 = searchWB core := by
      fin_cases hr <;> exact ⟨_, rfl⟩
    rw [hcore]
    exact searchWB_append core P.data D hend (by rw [hcore] at hrt; exact hrt)
  have hany : ((splitCommands (P ++ D)).any fun c => isCdCommand (jsTrim c)) =
      ((splitCommands D).any fun c => isCdCommand (jsTrim c)) := by
    rw [hsplit]
    simp [hcd]
  rw [analyze_unfold] at hblocked
  rw [analyze_unfold]
  by_cases h1 : (checkDangerousGitCommands (P ++ D)).blocked = true
  · rw [if_pos h1]
    exact h1
  · rw [if_neg h1]
    have h1D : ¬ (checkDangerousGitCommands D).blocked = true := fun h => h1 (hgit h)
    rw [if_neg h1D] at hblocked
    by_cases h2 : (checkRedirects env wd D).blocked = true
    · rw [hred, if_pos h2]
      exact h2
    · rw [hred, if_neg h2]
      rw [if_neg h2] at hblocked
      by_cases h3 : ((splitCommands D).any fun c => isCdCommand (jsTrim c)) = true
      · rw [if_neg (by rw [hany]; simp [h3])]
        rw [if_neg (by simp [h3])] at hblocked
        rw [hany, hsplit,
          analyzeLoop_skip_harmless env wd _ _ P0 hP0a hcd hP0b hP0c]
        exact hblocked
      · by_cases h4W : (checkDangerousPatterns env wd (P ++ D) none).blocked = true
        · rw [if_pos ⟨by rw [hany]; simpa using h3, h4W⟩]
          exact h4W
        · rw [if_neg fun hcon => h4W hcon.2]
          have h4D : ¬ (checkDangerousPatterns env wd D none).blocked = true :=
            fun h => h4W (hpat h)
          rw [if_neg fun hcon => h4D hcon.2] at hblocked
          rw [hsplit]
          have hany2 : ((P0 :: splitCommands D).any fun c =>
              isCdCommand (jsTrim c)) =
              ((splitCommands D).any fun c => isCdCommand (jsTrim c)) := by
            simp [hcd]
          rw [hany2,
            analyzeLoop_skip_harmless env wd _ _ P0 hP0a hcd hP0b hP0c]
          exact hblocked

/-- C8: the chain splitter treats `&&`, `;`, `||` and a single `|` (outside
quotes) as equivalent segment boundaries: prepending `echo ok && `,
`echo ok; `, `false || ` or `cat x | ` to any command that `analyze` blocks
still yields a blocked verdict; chain operators inside single or double
quotes do not split segments. -/
theorem C8_chain_operator_equivalence :
    (∀ (env : Env) (wd D : String),
      (analyze env wd D).blocked = true →
      (analyze env wd ("echo ok && " ++ D)).blocked = true ∧
      (analyze env wd ("echo ok; " ++ D)).blocked = true ∧
      (analyze env wd ("false || " ++ D)).blocked = true ∧
      (analyze env wd ("cat x | " ++ D)).blocked = true) ∧
    splitCommands "echo 'a && b; c | d'" = ["echo 'a && b; c | d'"] ∧
    splitCommands "echo \"a; b && c\" && rm x" =
      ["echo \"a; b && c\"", "rm x"] := by
  refine ⟨?_, by decide, by decide⟩
  intro env wd D hb
  refine ⟨?_, ?_, ?_, ?_⟩
  · exact prefix_blocked_mono env wd "echo ok && " "echo ok"
      ["echo".data, "ok".data, "&&".data] rfl (fun d rest => rfl)
      (lastSpace_nonword _ rfl) (by decide) (by decide) (fun X => rfl)
      (by decide) (by decide) (by decide) rfl rfl D hb
  · exact prefix_blocked_mono env wd "echo ok; " "echo ok"
      ["echo".data, "ok;".data] rfl (fun d rest => rfl)
      (lastSpace_nonword _ rfl) (by decide) (by decide) (fun X => rfl)
      (by decide) (by decide) (by decide) rfl rfl D hb
  · exact prefix_blocked_mono env wd "false || " "false"
      ["false".data, "||".data] rfl (fun d rest => rfl)
      (lastSpace_nonword _ rfl) (by decide) (by decide) (fun X => rfl)
      (by decide) (by decide) (by decide) rfl rfl D hb
  · exact prefix_blocked_mono env wd "cat x | " "cat x"
      ["cat".data, "x".data, "|".data] rfl (fun d rest => rfl)
      (lastSpace_nonword _ rfl) (by decide) (by decide) (fun X => rfl)
      (by decide) (by decide) (by decide) rfl rfl D hb

/-- Witness for C8: the equivalence applied to the concretely blocked
command `rm -rf /etc/x` under `env0`. -/
theorem C8_witness :
    (analyze env0 "/wd" ("echo ok && " ++ "rm -rf /etc/x")).blocked = true ∧
    (analyze env0 "/wd" ("echo ok; " ++ "rm -rf /etc/x")).blocked = true ∧
    (analyze env0 "/wd" ("false || " ++ "rm -rf /etc/x")).blocked = true ∧
    (analyze env0 "/wd" ("cat x | " ++ "rm -rf /etc/x")).blocked = true :=
  C8_chain_operator_equivalence.1 env0 "/wd" "rm -rf /etc/x" (by decide)

end Leash
